import Mathlib

/-!
Verification of the JSON-TREE core (src/App.jsx): path tokenizer,
canonical-path composer, tree-to-graph builder, and path resolver.

The JavaScript source is shallowly embedded: mutable accumulators
(`nodes`, `edges`, `leafOrderAtDepth`) become explicit state passing,
JS strings become `String`/`List Char`, the `null` return of the
tokenizer becomes `Option`, and JS numbers used as array indices and
grid coordinates become `Nat`/`Int`.
-/

namespace JsonTree

/-! ## Characters and trimming (JS `String.prototype.trim`) -/

/-- The character set removed by JS `trim()`: WhiteSpace plus LineTerminator. -/
def jsWhitespace (c : Char) : Bool :=
  c == ' ' || c == '\t' || c == '\n' || c == '\r' || c == '\x0b' || c == '\x0c' ||
  c.toNat == 0xA0 || c.toNat == 0xFEFF || c.toNat == 0x1680 ||
  (decide (0x2000 ≤ c.toNat) && decide (c.toNat ≤ 0x200A)) ||
  c.toNat == 0x2028 || c.toNat == 0x2029 || c.toNat == 0x202F ||
  c.toNat == 0x205F || c.toNat == 0x3000

/-- JS `s.trim()` on the underlying character list. -/
def trimChars (cs : List Char) : List Char :=
  ((cs.dropWhile jsWhitespace).reverse.dropWhile jsWhitespace).reverse

/-! ## Path tokenizer (`parseJsonPath`, App.jsx lines 14-53) -/

/-- JS regex `\d`: the ASCII digits. -/
def isDigitCh (c : Char) : Bool := decide ('0' ≤ c) && decide (c ≤ '9')

/-- `if (buf) tokens.push(buf)`: a non-empty pending buffer is flushed. -/
def flushBuf (buf : List Char) : List String :=
  if buf = [] then [] else [String.mk buf]

/-- State of the hand-written scanning loop of `parseJsonPath`:
either accumulating a bare identifier (`top buf`), inside a `[...]`
segment (`bracket acc`), or just past a closing `]` where one dot is
consumed silently (`afterBracket`, the `if (s[i] === ".") i++` step). -/
inductive ScanState where
  | top (buf : List Char)
  | bracket (acc : List Char)
  | afterBracket

/-- The scanning loop of `parseJsonPath` (lines 23-50).  In `bracket`
mode, reaching the end of input is the `j >= s.length` failure, and a
closing `]` whose trimmed accumulated content is not `^\d+$` is the
other failure; both return `none` (JS `null`). -/
def scan : List Char → ScanState → List String → Option (List String)
  | [], .top buf, toks => some (toks ++ flushBuf buf)
  | [], .bracket _, _ => none
  | [], .afterBracket, toks => some toks
  | c :: cs, .top buf, toks =>
      if c = '.' then
        scan cs (.top []) (toks ++ flushBuf buf)
      else if c = '[' then
        scan cs (.bracket []) (toks ++ flushBuf buf)
      else
        scan cs (.top (buf ++ [c])) toks
  | c :: cs, .bracket acc, toks =>
      if c = ']' then
        let idx := trimChars acc
        if idx ≠ [] ∧ idx.all isDigitCh then
          scan cs .afterBracket (toks ++ [String.mk ('[' :: idx ++ [']'])])
        else none
      else scan cs (.bracket (acc ++ [c])) toks
  | c :: cs, .afterBracket, toks =>
      if c = '.' then scan cs (.top []) toks
      else if c = '[' then scan cs (.bracket []) toks
      else scan cs (.top [c]) toks

/-- Stripping of a leading `$` and then a leading `.` (lines 17-18,
`startsWith` plus `slice(1)`). -/
def stripLead (cs : List Char) : List Char :=
  let cs1 := if cs.head? = some '$' then cs.tail else cs
  if cs1.head? = some '.' then cs1.tail else cs1

/-- `parseJsonPath` (lines 14-53): `null`/empty input gives `[]`; the
input is trimmed, `$`/`.`-stripped, scanned, and the token list is
passed through `filter(Boolean)` (line 52). -/
def parseJsonPath (input : String) : Option (List String) :=
  if input = "" then some []
  else (scan (stripLead (trimChars input.data)) (.top []) []).map
    (fun ts => ts.filter (fun t => t ≠ ""))

/-! ## Path composer (`makeChildPath`, lines 56-63) -/

def makeChildPath (parentPath key : String) : String :=
  if key.data.head? = some '[' then
    if parentPath = "" then key else parentPath ++ key
  else
    if parentPath = "" then key else parentPath ++ "." ++ key

/-! ## JSON values -/

/-- A parsed JSON document.  Numbers are modelled as integers: no
claim depends on non-integral numeric literals, only on the label
text of primitives, which is never inspected by the tokenizer,
composer, or resolver. -/
inductive JsonValue where
  | str (s : String)
  | num (n : Int)
  | bool (b : Bool)
  | null
  | arr (elems : List JsonValue)
  | obj (fields : List (String × JsonValue))
deriving Repr

/-- Decimal digit character, `48 + d` being the code of `'0' + d`. -/
def decDigitChar (d : Nat) : Char := Char.ofNat (48 + d)

/-- Fuel-driven decimal printer (the fuel argument only serves
structural recursion; `natToStr` supplies enough of it). -/
def decDigitsCore : Nat → Nat → List Char → List Char
  | 0, _, acc => acc
  | fuel + 1, n, acc =>
      let c := decDigitChar (n % 10)
      if n / 10 = 0 then c :: acc else decDigitsCore fuel (n / 10) (c :: acc)

/-- JS number-to-string for the array indices interpolated into
`` `[${idx}]` `` (line 141). -/
def natToStr (n : Nat) : String := String.mk (decDigitsCore (n + 1) n [])

def intToStr (n : Int) : String :=
  if n < 0 then "-" ++ natToStr n.natAbs else natToStr n.natAbs

/-- `JSON.stringify` as applied to primitives in node labels
(line 124); it is never applied to arrays or objects there. -/
def jsonLiteral : JsonValue → String
  | .str s => String.mk ('"' :: s.data.flatMap
      (fun c => if c = '"' then ['\\', '"']
                else if c = '\\' then ['\\', '\\'] else [c]) ++ ['"'])
  | .num n => intToStr n
  | .bool true => "true"
  | .bool false => "false"
  | .null => "null"
  | .arr _ => ""
  | .obj _ => ""

/-- `nodeTypeOf` (lines 94-98): arrays, then non-null objects, else
primitive (JS `null` falls through to `"primitive"`). -/
def nodeTypeOf : JsonValue → String
  | .arr _ => "array"
  | .obj _ => "object"
  | _ => "primitive"

/-- `type.toUpperCase()` for the three possible type strings. -/
def upperType (t : String) : String :=
  if t = "object" then "OBJECT" else if t = "array" then "ARRAY" else "PRIMITIVE"

/-! ## Tree-to-graph builder (`buildFlowFromJSON`, lines 85-159) -/

structure NodePos where
  x : Int
  y : Int
deriving Repr, DecidableEq

structure NodeData where
  label : String
  tooltip : String
  type : String
deriving Repr, DecidableEq

/-- A React-Flow node as produced by `addNode` (line 116); the
`style` record is a pure function of `type` (colour constants) and is
not modelled. -/
structure FlowNode where
  id : String
  position : NodePos
  data : NodeData
deriving Repr, DecidableEq

structure FlowEdge where
  id : String
  source : String
  target : String
deriving Repr, DecidableEq

/-- The mutable context of one `buildFlowFromJSON` run: the `nodes`
and `edges` arrays and the `leafOrderAtDepth` object (line 89),
modelled as an insertion-ordered association list. -/
structure BuildState where
  nodes : List FlowNode
  edges : List FlowEdge
  leafOrderAtDepth : List (Nat × Nat)
deriving Repr

/-- JS `leafOrderAtDepth[depth]` property read. -/
def lookupDepth (m : List (Nat × Nat)) (d : Nat) : Option Nat :=
  (m.find? (fun p => p.1 = d)).map (fun p => p.2)

/-- JS `leafOrderAtDepth[depth] = v` property write. -/
def setDepth (m : List (Nat × Nat)) (d v : Nat) : List (Nat × Nat) :=
  if m.any (fun p => p.1 = d) then
    m.map (fun p => if p.1 = d then (d, v) else p)
  else m ++ [(d, v)]

/-- `addNode` (lines 100-117): read the per-depth counter (default
0), place the node at `(order * X_STEP, depth * Y_STEP)` with
`X_STEP = 260`, `Y_STEP = 110`, and increment the counter. -/
def addNode (st : BuildState) (id label type : String) (depth : Nat) (tooltip : String) :
    BuildState :=
  let order := (lookupDepth st.leafOrderAtDepth depth).getD 0
  let x : Int := (order : Int) * 260
  let y : Int := (depth : Int) * 110
  { st with
    leafOrderAtDepth := setDepth st.leafOrderAtDepth depth (order + 1),
    nodes := st.nodes ++ [⟨id, ⟨x, y⟩, ⟨label, tooltip, type⟩⟩] }

mutual
/-- `traverse` (lines 119-146): label the node by kind, add it, push
the edge from `parentId` when present, and recurse into object fields
in insertion order or array elements in index order.  `path ||
keyLabel` is modelled by `if path = "" then keyLabel else path`. -/
def traverse (value : JsonValue) (path : String) (depth : Nat) (parentId : Option String)
    (keyLabel : String) (st : BuildState) : BuildState :=
  let type := nodeTypeOf value
  let nodeLabel :=
    if type = "object" then keyLabel ++ " \x7b \x7d"
    else if type = "array" then keyLabel ++ " [ ]"
    else keyLabel ++ ": " ++ jsonLiteral value
  let effId := if path = "" then keyLabel else path
  let tooltip := effId ++ "\n" ++ upperType type
  let st1 := addNode st effId nodeLabel type depth tooltip
  let st2 := match parentId with
    | some pid => { st1 with edges := st1.edges ++ [⟨pid ++ "->" ++ effId, pid, effId⟩] }
    | none => st1
  match value with
  | .obj fields => traverseFields fields path depth effId st2
  | .arr elems => traverseElems elems 0 path depth effId st2
  | _ => st2

/-- `Object.keys(value).forEach` body (lines 135-138). -/
def traverseFields : List (String × JsonValue) → String → Nat → String → BuildState →
    BuildState
  | [], _, _, _, st => st
  | (k, v) :: rest, path, depth, pid, st =>
      let st1 := traverse v (makeChildPath path k) (depth + 1) (some pid) k st
      traverseFields rest path depth pid st1

/-- `value.forEach((item, idx) => ...)` body (lines 140-144). -/
def traverseElems : List JsonValue → Nat → String → Nat → String → BuildState → BuildState
  | [], _, _, _, _, st => st
  | v :: rest, i, path, depth, pid, st =>
      let k := "[" ++ natToStr i ++ "]"
      let st1 := traverse v (makeChildPath path k) (depth + 1) (some pid) k st
      traverseElems rest (i + 1) path depth pid st1
end

/-- `buildFlowFromJSON` (lines 85-159): run the traversal from
`("root", depth 0, no parent)`, then re-center every `x` by
`centerX = (maxCols - 1) * X_STEP / 2` where `maxCols` is the largest
per-depth counter (1 when there are none). -/
def buildFlowFromJSON (json : JsonValue) : List FlowNode × List FlowEdge :=
  let st := traverse json "root" 0 none "root" ⟨[], [], []⟩
  let depthCounts := st.leafOrderAtDepth
  let maxCols := if depthCounts = [] then 1 else (depthCounts.map (fun p => p.2)).foldl max 0
  let centerX : Int := ((maxCols : Int) - 1) * 260 / 2
  (st.nodes.map (fun n => { n with position := { n.position with x := n.position.x - centerX } }),
   st.edges)

/-! ## Path resolver (`findNodeByPath` lines 247-259, `doSearch` lines 261-283) -/

/-- `findNodeByPath`: tokenize, fold `makeChildPath` from `"root"`,
and look the resulting canonical path up among the node ids. -/
def findNodeByPath (pathStr : String) (nodes : List FlowNode) : Option FlowNode :=
  match parseJsonPath pathStr with
  | none => none
  | some tokens =>
      let path := tokens.foldl makeChildPath "root"
      nodes.find? (fun n => n.id = path)

/-- The normalization expression of `doSearch` (line 265). -/
def normalizeQuery (q : String) : String :=
  if q.data.head? == some '$' || "root".data.isPrefixOf q.data ||
     q.data.contains '[' || q.data.contains '.' then q
  else "$." ++ q

/-- The resolver pipeline of `doSearch`: normalize then look up. -/
def resolveQuery (q : String) (nodes : List FlowNode) : Option FlowNode :=
  findNodeByPath (normalizeQuery q) nodes

/-- `doSearch` (lines 261-283) as the node it highlights: the trimmed
query, when empty, is a no-op; otherwise it is normalized and
resolved. -/
def doSearch (query : String) (nodes : List FlowNode) : Option FlowNode :=
  let q := String.mk (trimChars query.data)
  if q = "" then none else resolveQuery q nodes

/-- The `node.id.replace(/^root\.?/, "")` step of `onNodeClick`
(line 287): the regex removes `"root."` when present, else `"root"`,
else nothing, anchored at the start. -/
def stripRootLead (s : String) : String :=
  if "root.".data.isPrefixOf s.data then String.mk (s.data.drop 5)
  else if "root".data.isPrefixOf s.data then String.mk (s.data.drop 4)
  else s

/-! ## The Visualize action (`visualize`, lines 219-227) -/

/-- The app state touched by `visualize`: the raw textarea content,
the error banner, and the JSON value the graph is derived from
(`nodes`/`edges` are the memoized `buildFlowFromJSON json`). -/
structure AppModel where
  raw : String
  error : String
  json : JsonValue

def invalidJsonMsg : String := "Invalid JSON. Please fix the syntax and try again."

/-- `visualize`: clear the error, `JSON.parse` the raw text (the host
parser is a parameter), set the JSON on success, set the error
message on failure.  `setJson` is what triggers a rebuild; on the
failure path it is never called. -/
def visualize (parse : String → Option JsonValue) (st : AppModel) : AppModel :=
  let st1 := { st with error := "" }
  match parse st1.raw with
  | some v => { st1 with json := v }
  | none => { st1 with error := invalidJsonMsg }

/-! ## Specification-side definitions

These transcribe the spec's wording, to be compared with the
source-derived functions above. -/

/-- Modelled from the spec (§4.1): the tokenizer fails exactly on an
unterminated bracket segment or on bracket content whose trimmed form
is not `^\d+$`.  The scan looks for `[`, accumulates until `]`
(failing at end of input), and checks the trimmed content. -/
def specFailsAux : List Char → Option (List Char) → Bool
  | [], none => false
  | [], some _ => true
  | c :: cs, none => if c = '[' then specFailsAux cs (some []) else specFailsAux cs none
  | c :: cs, some acc =>
      if c = ']' then
        if trimChars acc ≠ [] ∧ (trimChars acc).all isDigitCh then specFailsAux cs none
        else true
      else specFailsAux cs (some (acc ++ [c]))

/-- Whether the post-strip scan hits a malformed bracket segment. -/
def specFails (cs : List Char) : Bool := specFailsAux cs none

mutual
/-- Modelled from the spec (§4.3 step 4): the depth of every node in
depth-first pre-order visiting order. -/
def specDepths : JsonValue → Nat → List Nat
  | .obj fs, d => d :: specDepthsFields fs d
  | .arr xs, d => d :: specDepthsElems xs d
  | _, d => [d]

def specDepthsFields : List (String × JsonValue) → Nat → List Nat
  | [], _ => []
  | (_, v) :: rest, d => specDepths v (d + 1) ++ specDepthsFields rest d

def specDepthsElems : List JsonValue → Nat → List Nat
  | [], _ => []
  | v :: rest, d => specDepths v (d + 1) ++ specDepthsElems rest d
end

/-- Modelled from the spec (§4.3 step 4): visit the pre-order depth
sequence, keeping one running counter per depth level (shared, never
reset); each visit reads the counter `c` (default 0), emits
`(c * 260, d * 110)` and increments the counter. -/
def specVisit : List Nat → List (Nat × Nat) → List (Int × Int) × List (Nat × Nat)
  | [], ctrs => ([], ctrs)
  | d :: ds, ctrs =>
      let c := (lookupDepth ctrs d).getD 0
      let r := specVisit ds (setDepth ctrs d (c + 1))
      (((c : Int) * 260, (d : Int) * 110) :: r.1, r.2)

/-- Modelled from the spec (§4.3 step 7): run the visit, compute
`maxCols` as the maximum per-depth counter (1 if there are none) and
subtract `centerX = (maxCols - 1) * 260 / 2` from every `x`. -/
def specLayout (v : JsonValue) : List (Int × Int) :=
  let r := specVisit (specDepths v 0) []
  let maxCols := if r.2 = [] then 1 else (r.2.map (fun p => p.2)).foldl max 0
  let centerX : Int := ((maxCols : Int) - 1) * 260 / 2
  r.1.map (fun p => (p.1 - centerX, p.2))

/-! ## Analysis definitions: canonical-path segments -/

/-- One access step of a canonical path: object key or array index. -/
inductive Seg where
  | key (k : String)
  | idx (i : Nat)
deriving Repr, DecidableEq

/-- The characters a step contributes to a canonical path: `.k` for a
key, `[i]` for an index (matching `makeChildPath` under a non-empty
parent). -/
def segChars : Seg → List Char
  | .key k => '.' :: k.data
  | .idx i => '[' :: (natToStr i).data ++ [']']

def renderChars (segs : List Seg) : List Char := segs.flatMap segChars

def renderSegs (segs : List Seg) : String := String.mk (renderChars segs)

/-- The token string `parseJsonPath` produces for one step. -/
def tokenOfSeg : Seg → String
  | .key k => k
  | .idx i => "[" ++ natToStr i ++ "]"

def toksOfSegs (segs : List Seg) : List String := segs.map tokenOfSeg

mutual
/-- The tree positions of all values of a document, each as the list
of access steps from the root, in depth-first pre-order. -/
def positionsOf : JsonValue → List (List Seg)
  | .obj fs => [] :: positionsFields fs
  | .arr xs => [] :: positionsElems xs 0
  | _ => [[]]

def positionsFields : List (String × JsonValue) → List (List Seg)
  | [] => []
  | (k, v) :: rest => (positionsOf v).map (fun s => Seg.key k :: s) ++ positionsFields rest

def positionsElems : List JsonValue → Nat → List (List Seg)
  | [], _ => []
  | v :: rest, i => (positionsOf v).map (fun s => Seg.idx i :: s) ++ positionsElems rest (i + 1)
end

/-! ## Analysis definitions: pure mirrors of the traversal output -/

mutual
/-- The node ids `traverse value path depth parentId keyLabel` appends,
in order. -/
def idsOf : JsonValue → String → String → List String
  | .obj fs, path, kl => (if path = "" then kl else path) :: idsFields fs path
  | .arr xs, path, kl => (if path = "" then kl else path) :: idsElems xs 0 path
  | _, path, kl => [if path = "" then kl else path]

def idsFields : List (String × JsonValue) → String → List String
  | [], _ => []
  | (k, v) :: rest, path => idsOf v (makeChildPath path k) k ++ idsFields rest path

def idsElems : List JsonValue → Nat → String → List String
  | [], _, _ => []
  | v :: rest, i, path =>
      idsOf v (makeChildPath path ("[" ++ natToStr i ++ "]")) ("[" ++ natToStr i ++ "]") ++
        idsElems rest (i + 1) path
end

/-- The edge a visit contributes when it has a parent. -/
def selfEdges (parent : Option String) (effId : String) : List FlowEdge :=
  match parent with
  | some pid => [⟨pid ++ "->" ++ effId, pid, effId⟩]
  | none => []

mutual
/-- The edges `traverse value path depth parentId keyLabel` appends,
in order. -/
def edgesOf : JsonValue → String → String → Option String → List FlowEdge
  | .obj fs, path, kl, parent =>
      let effId := if path = "" then kl else path
      selfEdges parent effId ++ edgesFields fs path effId
  | .arr xs, path, kl, parent =>
      let effId := if path = "" then kl else path
      selfEdges parent effId ++ edgesElems xs 0 path effId
  | _, path, kl, parent => selfEdges parent (if path = "" then kl else path)

def edgesFields : List (String × JsonValue) → String → String → List FlowEdge
  | [], _, _ => []
  | (k, v) :: rest, path, pid =>
      edgesOf v (makeChildPath path k) k (some pid) ++ edgesFields rest path pid

def edgesElems : List JsonValue → Nat → String → String → List FlowEdge
  | [], _, _, _ => []
  | v :: rest, i, path, pid =>
      edgesOf v (makeChildPath path ("[" ++ natToStr i ++ "]")) ("[" ++ natToStr i ++ "]")
          (some pid) ++
        edgesElems rest (i + 1) path pid
end

/-- The edge relation induced by an edge list. -/
def edgeRel (es : List FlowEdge) (a b : String) : Prop :=
  ∃ e ∈ es, e.source = a ∧ e.target = b

/-! ## Analysis definitions: key-safety conditions -/

/-- A key that keeps canonical paths uniquely decodable: it contains
neither `.` nor `[`. -/
def pathSafeKey (k : String) : Bool :=
  k.data.all (fun c => !(c == '.') && !(c == '['))

mutual
/-- Documents all of whose object keys are `pathSafeKey`. -/
def pathKeysOk : JsonValue → Bool
  | .obj fs => pathKeysFields fs
  | .arr xs => pathKeysElems xs
  | _ => true

def pathKeysFields : List (String × JsonValue) → Bool
  | [] => true
  | (k, v) :: rest => pathSafeKey k && pathKeysOk v && pathKeysFields rest

def pathKeysElems : List JsonValue → Bool
  | [] => true
  | v :: rest => pathKeysOk v && pathKeysElems rest
end

mutual
/-- Documents whose canonical paths are pairwise distinct: every
object has pairwise-distinct keys, all of them `pathSafeKey`. -/
def uniqJson : JsonValue → Bool
  | .obj fs => decide (fs.map Prod.fst).Nodup && uniqFields fs
  | .arr xs => uniqElems xs
  | _ => true

def uniqFields : List (String × JsonValue) → Bool
  | [] => true
  | (k, v) :: rest => pathSafeKey k && uniqJson v && uniqFields rest

def uniqElems : List JsonValue → Bool
  | [] => true
  | v :: rest => uniqJson v && uniqElems rest
end

/-- A key that additionally survives the resolver pipeline: non-empty,
free of `.`, `[`, and JS whitespace, and not starting with `$`. -/
def safeKey (k : String) : Bool :=
  !(k == "") &&
  k.data.all (fun c => !(c == '.') && !(c == '[') && !(jsWhitespace c)) &&
  !(k.data.head? == some '$')

mutual
/-- Documents all of whose object keys are `safeKey`. -/
def safeJson : JsonValue → Bool
  | .obj fs => safeFields fs
  | .arr xs => safeElems xs
  | _ => true

def safeFields : List (String × JsonValue) → Bool
  | [] => true
  | (k, v) :: rest => safeKey k && safeJson v && safeFields rest

def safeElems : List JsonValue → Bool
  | [] => true
  | v :: rest => safeJson v && safeElems rest
end

/-- Every key of a segment list is path-safe. -/
def segsPathSafe (segs : List Seg) : Bool :=
  segs.all (fun s => match s with | .key k => pathSafeKey k | .idx _ => true)

/-- Every key of a segment list is safe for the resolver round trip. -/
def segsSafe (segs : List Seg) : Bool :=
  segs.all (fun s => match s with | .key k => safeKey k | .idx _ => true)

/-- Shape of every token `parseJsonPath` can emit: non-empty, and
either a bracket segment `[...]` or a bare identifier free of `.` and
`[`. -/
def goodTok (t : String) : Prop :=
  t.data ≠ [] ∧
    ((∃ ds, t.data = '[' :: ds ++ [']']) ∨ (∀ c ∈ t.data, c ≠ '.' ∧ c ≠ '['))

/-! ## Concrete example documents -/

/-- Scenario B input `{"items":[{"id":1}]}`. -/
def exScenarioB : JsonValue := .obj [("items", .arr [.obj [("id", .num 1)]])]

/-- `{"a.b": 1, "a": {"b": 2}}`: two distinct positions share the
canonical path `root.a.b`. -/
def exDotKey : JsonValue := .obj [("a.b", .num 1), ("a", .obj [("b", .num 2)])]

/-- `{"a[": 1}`: its node id `root.a[` strips to the query `a[`,
which the tokenizer rejects. -/
def exBracketKey : JsonValue := .obj [("a[", .num 1)]

/-- `{"": 1}`: produces the node id `root.`. -/
def exEmptyKey : JsonValue := .obj [("", .num 1)]

/-- `{"a": [10, 20]}`: a two-element array for index queries. -/
def exArrayDoc : JsonValue := .obj [("a", .arr [.num 10, .num 20])]

/-- `{"a": 1}`. -/
def exSimple : JsonValue := .obj [("a", .num 1)]

/-- The decimal value of a digit string, inverse of `natToStr`. -/
def valOfDigits (cs : List Char) : Nat :=
  cs.foldl (fun a c => 10 * a + (c.toNat - 48)) 0

/-- The grid coordinates of a node. -/
def posXY (n : FlowNode) : Int × Int := (n.position.x, n.position.y)

/-! # Lemmas and theorems -/

/-! ## String and character basics -/

theorem string_ext {s t : String} (h : s.data = t.data) : s = t := by
  cases s
  cases t
  exact congrArg String.mk h

theorem data_mk (cs : List Char) : (String.mk cs).data = cs := rfl

theorem ne_empty_iff_data {s : String} : s ≠ "" ↔ s.data ≠ [] := by
  constructor
  · intro h hd
    exact h (string_ext (by simpa using hd))
  · intro h hs
    exact h (by simp [hs])

theorem append_data (s t : String) : (s ++ t).data = s.data ++ t.data :=
  String.data_append s t

/-! ## Trimming -/

theorem dropWhile_eq_self_of_all {p : Char → Bool} {cs : List Char}
    (h : ∀ c ∈ cs, p c = false) : cs.dropWhile p = cs := by
  cases cs with
  | nil => rfl
  | cons a l => simp [List.dropWhile_cons, h a (by simp)]

theorem trimChars_eq_self {cs : List Char} (h : ∀ c ∈ cs, jsWhitespace c = false) :
    trimChars cs = cs := by
  unfold trimChars
  rw [dropWhile_eq_self_of_all h]
  rw [dropWhile_eq_self_of_all (fun c hc => h c (List.mem_reverse.mp hc))]
  exact List.reverse_reverse cs

/-! ## Digit characters and `natToStr` -/

theorem beq_char_false {c d : Char} (h : c.toNat ≠ d.toNat) : (c == d) = false :=
  beq_eq_false_iff_ne.mpr (fun hEq => h (by rw [hEq]))

theorem isDigitCh_toNat {c : Char} (h : isDigitCh c = true) :
    48 ≤ c.toNat ∧ c.toNat ≤ 57 := by
  simpa [isDigitCh] using h

theorem jsWhitespace_eq_false_of_digit {c : Char} (h : isDigitCh c = true) :
    jsWhitespace c = false := by
  have hb := isDigitCh_toNat h
  have e1 : (c == ' ') = false :=
    beq_char_false (by rw [show (' ' : Char).toNat = 32 from by decide]; omega)
  have e2 : (c == '\t') = false :=
    beq_char_false (by rw [show ('\t' : Char).toNat = 9 from by decide]; omega)
  have e3 : (c == '\n') = false :=
    beq_char_false (by rw [show ('\n' : Char).toNat = 10 from by decide]; omega)
  have e4 : (c == '\r') = false :=
    beq_char_false (by rw [show ('\r' : Char).toNat = 13 from by decide]; omega)
  have e5 : (c == '\x0b') = false :=
    beq_char_false (by rw [show ('\x0b' : Char).toNat = 11 from by decide]; omega)
  have e6 : (c == '\x0c') = false :=
    beq_char_false (by rw [show ('\x0c' : Char).toNat = 12 from by decide]; omega)
  have hr : ¬ (0x2000 ≤ c.toNat) := by omega
  simp [jsWhitespace, e1, e2, e3, e4, e5, e6, hr]
  omega

theorem digit_not_special {c : Char} (h : isDigitCh c = true) :
    c ≠ '.' ∧ c ≠ '[' ∧ c ≠ ']' ∧ c ≠ '$' ∧ jsWhitespace c = false := by
  have hb := isDigitCh_toNat h
  refine ⟨?_, ?_, ?_, ?_, jsWhitespace_eq_false_of_digit h⟩
  · rintro rfl; revert hb; decide
  · rintro rfl; revert hb; decide
  · rintro rfl; revert hb; decide
  · rintro rfl; revert hb; decide

theorem toNat_decDigitChar {d : Nat} (h : d < 10) : (decDigitChar d).toNat = 48 + d := by
  interval_cases d <;> decide

theorem isDigitCh_decDigitChar {d : Nat} (h : d < 10) : isDigitCh (decDigitChar d) = true := by
  interval_cases d <;> decide

theorem decDigitsCore_acc (fuel : Nat) :
    ∀ n acc, decDigitsCore fuel n acc = decDigitsCore fuel n [] ++ acc := by
  induction fuel with
  | zero => intro n acc; rfl
  | succ f ih =>
      intro n acc
      by_cases h : n / 10 = 0
      · simp [decDigitsCore, h]
      · simp only [decDigitsCore, h, if_false]
        rw [ih (n / 10) (decDigitChar (n % 10) :: acc), ih (n / 10) [decDigitChar (n % 10)]]
        simp

theorem decDigitsCore_fuel {n : Nat} :
    ∀ fuel fuel', n < fuel → n < fuel' →
      decDigitsCore fuel n [] = decDigitsCore fuel' n [] := by
  induction n using Nat.strong_induction_on with
  | _ n ih =>
      intro fuel fuel' hf hf'
      match fuel, fuel' with
      | f + 1, f' + 1 =>
        by_cases h : n / 10 = 0
        · simp [decDigitsCore, h]
        · simp only [decDigitsCore, h, if_false]
          rw [decDigitsCore_acc f, decDigitsCore_acc f']
          have hlt : n / 10 < n := Nat.div_lt_self (by omega) (by omega)
          rw [ih (n / 10) hlt f f' (by omega) (by omega)]

theorem natToStr_data_eq_core {n fuel : Nat} (h : n < fuel) :
    (natToStr n).data = decDigitsCore fuel n [] := by
  unfold natToStr
  rw [data_mk]
  exact decDigitsCore_fuel (n + 1) fuel (by omega) h

theorem natToStr_digits {n : Nat} : ∀ c ∈ (natToStr n).data, isDigitCh c = true := by
  have core : ∀ fuel n acc, (∀ c ∈ acc, isDigitCh c = true) →
      ∀ c ∈ decDigitsCore fuel n acc, isDigitCh c = true := by
    intro fuel
    induction fuel with
    | zero => intro n acc hacc c hc; exact hacc c hc
    | succ f ih =>
        intro n acc hacc c hc
        have hd : isDigitCh (decDigitChar (n % 10)) = true :=
          isDigitCh_decDigitChar (Nat.mod_lt _ (by omega))
        by_cases h : n / 10 = 0
        · simp only [decDigitsCore, h, if_true] at hc
          rcases List.mem_cons.mp hc with rfl | hmem
          · exact hd
          · exact hacc c hmem
        · simp only [decDigitsCore, h, if_false] at hc
          refine ih (n / 10) _ ?_ c hc
          intro c' hc'
          rcases List.mem_cons.mp hc' with rfl | hmem
          · exact hd
          · exact hacc c' hmem
  intro c hc
  unfold natToStr at hc
  rw [data_mk] at hc
  exact core (n + 1) n [] (by simp) c hc

theorem natToStr_ne_nil {n : Nat} : (natToStr n).data ≠ [] := by
  unfold natToStr
  rw [data_mk]
  by_cases h : n / 10 = 0
  · simp [decDigitsCore, h]
  · simp only [decDigitsCore, h, if_false]
    rw [decDigitsCore_acc]
    simp

theorem valOfDigits_natToStr {n : Nat} : valOfDigits (natToStr n).data = n := by
  induction n using Nat.strong_induction_on with
  | _ n ih =>
      by_cases h : n < 10
      · have h0 : n / 10 = 0 := Nat.div_eq_of_lt h
        have hmod : n % 10 = n := Nat.mod_eq_of_lt h
        rw [natToStr_data_eq_core (show n < n + 1 by omega)]
        simp only [decDigitsCore, h0, if_true]
        simp only [valOfDigits, List.foldl_cons, List.foldl_nil]
        rw [hmod, toNat_decDigitChar h]
        omega
      · have h0 : n / 10 ≠ 0 := by
          intro hz
          have := Nat.div_eq_of_lt (show n < 10 by omega)
          omega
        rw [natToStr_data_eq_core (show n < n + 1 by omega)]
        simp only [decDigitsCore, h0, if_false]
        rw [decDigitsCore_acc]
        have hlt : n / 10 < n := Nat.div_lt_self (by omega) (by omega)
        rw [← natToStr_data_eq_core (show n / 10 < n by omega)]
        have hval : valOfDigits ((natToStr (n / 10)).data ++ [decDigitChar (n % 10)]) =
            10 * valOfDigits (natToStr (n / 10)).data + ((decDigitChar (n % 10)).toNat - 48) := by
          unfold valOfDigits
          rw [List.foldl_append]
          simp
        rw [hval, ih (n / 10) hlt, toNat_decDigitChar (Nat.mod_lt _ (by omega))]
        omega

theorem natToStr_inj {m n : Nat} (h : natToStr m = natToStr n) : m = n := by
  have := congrArg (fun s => valOfDigits s.data) h
  simpa [valOfDigits_natToStr] using this

/-! ## Scanning-loop lemmas -/

theorem scan_top_dot (cs : List Char) (toks : List String) :
    scan ('.' :: cs) (.top []) toks = scan cs (.top []) toks := by
  simp [scan, flushBuf]

theorem scan_afterBracket_eq (cs : List Char) (toks : List String) :
    scan cs .afterBracket toks = scan cs (.top []) toks := by
  cases cs with
  | nil => simp [scan, flushBuf]
  | cons c l =>
      by_cases h1 : c = '.'
      · simp [scan, h1, flushBuf]
      · by_cases h2 : c = '['
        · simp [scan, h1, h2, flushBuf]
        · simp [scan, h1, h2, flushBuf]

theorem scan_top_chars {ks : List Char} (hk : ∀ c ∈ ks, c ≠ '.' ∧ c ≠ '[') :
    ∀ cs buf toks, scan (ks ++ cs) (.top buf) toks = scan cs (.top (buf ++ ks)) toks := by
  induction ks with
  | nil => intro cs buf toks; simp
  | cons a l ih =>
      intro cs buf toks
      have ha := hk a (by simp)
      have hl : ∀ c ∈ l, c ≠ '.' ∧ c ≠ '[' := fun c hc => hk c (by simp [hc])
      simp only [List.cons_append, scan, ha.1, ha.2, if_false, List.append_eq]
      rw [ih hl cs (buf ++ [a]) toks]
      simp

theorem scan_bracket_chars {ds : List Char} (hd : ∀ c ∈ ds, c ≠ ']') :
    ∀ cs acc toks, scan (ds ++ cs) (.bracket acc) toks = scan cs (.bracket (acc ++ ds)) toks := by
  induction ds with
  | nil => intro cs acc toks; simp
  | cons a l ih =>
      intro cs acc toks
      have ha := hd a (by simp)
      have hl : ∀ c ∈ l, c ≠ ']' := fun c hc => hd c (by simp [hc])
      simp only [List.cons_append, scan, ha, if_false, List.append_eq]
      rw [ih hl cs (acc ++ [a]) toks]
      simp

theorem renderChars_cons (s : Seg) (rest : List Seg) :
    renderChars (s :: rest) = segChars s ++ renderChars rest := by
  simp [renderChars]

theorem flushBuf_of_ne {buf : List Char} (h : buf ≠ []) :
    flushBuf buf = [String.mk buf] := by
  simp [flushBuf, h]

theorem scan_renderChars {segs : List Seg}
    (h : ∀ k, Seg.key k ∈ segs → k ≠ "" ∧ ∀ c ∈ k.data, c ≠ '.' ∧ c ≠ '[') :
    ∀ buf toks, scan (renderChars segs) (.top buf) toks =
      some (toks ++ flushBuf buf ++ toksOfSegs segs) := by
  induction segs with
  | nil => intro buf toks; simp [renderChars, toksOfSegs, scan]
  | cons s rest ih =>
      have hrest : ∀ k, Seg.key k ∈ rest → k ≠ "" ∧ ∀ c ∈ k.data, c ≠ '.' ∧ c ≠ '[' :=
        fun k hk => h k (by simp [hk])
      intro buf toks
      cases s with
      | key k =>
          have hks := h k (by simp)
          have hkd : k.data ≠ [] := ne_empty_iff_data.mp hks.1
          rw [renderChars_cons]
          simp only [segChars, List.cons_append, scan, if_true, List.append_eq]
          rw [scan_top_chars hks.2 (renderChars rest) [] (toks ++ flushBuf buf)]
          simp only [List.nil_append]
          rw [ih hrest k.data (toks ++ flushBuf buf)]
          rw [flushBuf_of_ne hkd]
          simp [toksOfSegs, tokenOfSeg]
      | idx i =>
          rw [renderChars_cons]
          have hdig : ∀ c ∈ (natToStr i).data, c ≠ ']' :=
            fun c hc => (digit_not_special (natToStr_digits c hc)).2.2.1
          have hnw : ∀ c ∈ (natToStr i).data, jsWhitespace c = false :=
            fun c hc => jsWhitespace_eq_false_of_digit (natToStr_digits c hc)
          simp only [segChars, List.cons_append, List.append_assoc, List.cons_append,
            scan, if_true, List.append_eq, List.nil_append]
          rw [if_neg (show ¬ ('[' : Char) = '.' by decide)]
          rw [scan_bracket_chars hdig (']' :: renderChars rest) [] (toks ++ flushBuf buf)]
          simp only [List.nil_append, scan, if_true]
          rw [trimChars_eq_self hnw]
          rw [if_pos ⟨natToStr_ne_nil, by
            rw [List.all_eq_true]; intro c hc; exact natToStr_digits c hc⟩]
          rw [scan_afterBracket_eq]
          rw [ih hrest [] _]
          simp only [flushBuf, if_pos rfl, List.append_nil]
          have htok : String.mk ('[' :: (natToStr i).data ++ [']']) = tokenOfSeg (.idx i) := by
            apply string_ext
            simp [tokenOfSeg, append_data, data_mk]
          rw [htok]
          simp [toksOfSegs]

/-! ## Token-shape invariant of the scanner -/

theorem goodTok_flush {buf : List Char} (hb : ∀ c ∈ buf, c ≠ '.' ∧ c ≠ '[') :
    ∀ t ∈ flushBuf buf, goodTok t := by
  intro t ht
  unfold flushBuf at ht
  by_cases h : buf = []
  · simp [h] at ht
  · simp only [h, if_false, List.mem_singleton] at ht
    subst ht
    exact ⟨by simpa [data_mk] using h, Or.inr (by simpa [data_mk] using hb)⟩

theorem scan_goodTok :
    ∀ (cs : List Char) (st : ScanState) (toks res : List String),
      (∀ buf, st = .top buf → ∀ c ∈ buf, c ≠ '.' ∧ c ≠ '[') →
      (∀ t ∈ toks, goodTok t) →
      scan cs st toks = some res → ∀ t ∈ res, goodTok t := by
  intro cs
  induction cs with
  | nil =>
      intro st toks res hst htoks hres
      cases st with
      | top buf =>
          simp only [scan, Option.some_inj] at hres
          subst hres
          intro t ht
          rcases List.mem_append.mp ht with h | h
          · exact htoks t h
          · exact goodTok_flush (hst buf rfl) t h
      | bracket acc => simp [scan] at hres
      | afterBracket =>
          simp only [scan, Option.some_inj] at hres
          subst hres
          exact htoks
  | cons c l ih =>
      intro st toks res hst htoks hres
      cases st with
      | top buf =>
          have hbuf := hst buf rfl
          by_cases h1 : c = '.'
          · simp only [scan, h1, if_true] at hres
            refine ih (.top []) _ res (by simp) ?_ hres
            intro t ht
            rcases List.mem_append.mp ht with h | h
            · exact htoks t h
            · exact goodTok_flush hbuf t h
          · by_cases h2 : c = '['
            · simp only [scan, h1, h2, if_false, if_true] at hres
              refine ih (.bracket []) _ res (by simp) ?_ hres
              intro t ht
              rcases List.mem_append.mp ht with h | h
              · exact htoks t h
              · exact goodTok_flush hbuf t h
            · simp only [scan, h1, h2, if_false] at hres
              refine ih (.top (buf ++ [c])) _ res ?_ htoks hres
              intro buf' heq c' hc'
              have hbeq : buf ++ [c] = buf' := by injection heq
              subst hbeq
              rcases List.mem_append.mp hc' with h | h
              · exact hbuf c' h
              · simp only [List.mem_singleton] at h
                subst h
                exact ⟨h1, h2⟩
      | bracket acc =>
          by_cases h1 : c = ']'
          · subst h1
            simp only [scan] at hres
            by_cases h2 : trimChars acc ≠ [] ∧ (trimChars acc).all isDigitCh
            · rw [if_pos h2] at hres
              refine ih .afterBracket _ res (by simp) ?_ hres
              intro t ht
              rcases List.mem_append.mp ht with h | h
              · exact htoks t h
              · simp only [List.mem_singleton] at h
                subst h
                refine ⟨by simp [data_mk], Or.inl ⟨trimChars acc, by simp [data_mk]⟩⟩
            · rw [if_neg h2] at hres
              exact absurd hres (by simp)
          · simp only [scan, h1, if_false] at hres
            exact ih (.bracket (acc ++ [c])) _ res (by simp) htoks hres
      | afterBracket =>
          by_cases h1 : c = '.'
          · simp only [scan, h1, if_true] at hres
            exact ih (.top []) _ res (by simp) htoks hres
          · by_cases h2 : c = '['
            · simp only [scan, h1, h2, if_false, if_true] at hres
              exact ih (.bracket []) _ res (by simp) htoks hres
            · simp only [scan, h1, h2, if_false] at hres
              refine ih (.top [c]) _ res ?_ htoks hres
              intro buf' heq c' hc'
              have hbeq : [c] = buf' := by injection heq
              subst hbeq
              simp only [List.mem_singleton] at hc'
              subst hc'
              exact ⟨h1, h2⟩

theorem parse_goodTok {s : String} {toks : List String}
    (h : parseJsonPath s = some toks) : ∀ t ∈ toks, goodTok t := by
  unfold parseJsonPath at h
  by_cases hs : s = ""
  · simp only [hs, if_true, Option.some_inj] at h
    subst h
    simp
  · simp only [hs, if_false, Option.map_eq_some'] at h
    obtain ⟨res, hres, hfil⟩ := h
    subst hfil
    intro t ht
    exact scan_goodTok _ (.top []) [] res (by simp) (by simp) hres t
      (List.mem_of_mem_filter ht)

/-! ## Composer lemmas -/

theorem makeChildPath_bracket {p t : String} (hp : p ≠ "") (ht : t.data.head? = some '[') :
    makeChildPath p t = p ++ t := by
  unfold makeChildPath
  rw [if_pos ht, if_neg hp]

theorem makeChildPath_key {p t : String} (hp : p ≠ "") (ht : t.data.head? ≠ some '[') :
    makeChildPath p t = p ++ "." ++ t := by
  unfold makeChildPath
  rw [if_neg ht, if_neg hp]

theorem mem_of_getLast?_eq {α : Type} {l : List α} {a : α} (h : l.getLast? = some a) :
    a ∈ l := by
  induction l with
  | nil => simp at h
  | cons x xs ih =>
      cases hxs : xs with
      | nil => subst hxs; simp_all
      | cons y ys =>
          rw [hxs] at ih
          right
          apply ih
          rw [← h, hxs]
          rfl

/-- Folding `makeChildPath` over well-shaped tokens from a non-empty
base whose last character is not `.` yields a non-empty path whose
last character is not `.`. -/
theorem foldl_makeChildPath_last {toks : List String} (h : ∀ t ∈ toks, goodTok t) :
    ∀ p : String, p ≠ "" → p.data.getLast? ≠ some '.' →
      toks.foldl makeChildPath p ≠ "" ∧
      (toks.foldl makeChildPath p).data.getLast? ≠ some '.' := by
  induction toks with
  | nil => intro p h1 h2; exact ⟨h1, h2⟩
  | cons t rest ih =>
      intro p h1 h2
      have ht := h t (by simp)
      have htd : t.data ≠ [] := ht.1
      have hrest : ∀ u ∈ rest, goodTok u := fun u hu => h u (by simp [hu])
      simp only [List.foldl_cons]
      by_cases hb : t.data.head? = some '['
      · rw [makeChildPath_bracket h1 hb]
        refine ih hrest _ ?_ ?_
        · rw [ne_empty_iff_data, append_data]
          simp [ne_empty_iff_data.mp h1]
        · rcases ht.2 with ⟨ds, hds⟩ | hbare
          · rw [append_data, List.getLast?_append_of_ne_nil _ htd, hds]
            rw [show ('[' :: ds ++ [']'] : List Char) = ('[' :: ds) ++ [']'] from rfl]
            rw [List.getLast?_concat]
            simp
          · exfalso
            have : '[' ∈ t.data := List.mem_of_mem_head? (by simp [hb])
            exact (hbare '[' this).2 rfl
      · rw [makeChildPath_key h1 hb]
        refine ih hrest _ ?_ ?_
        · rw [ne_empty_iff_data, append_data]
          simp [ne_empty_iff_data.mp h1]
        · rcases ht.2 with ⟨ds, hds⟩ | hbare
          · exact absurd (by rw [hds]; rfl) hb
          · intro hlast
            rw [append_data, List.getLast?_append_of_ne_nil _ htd] at hlast
            exact (hbare '.' (mem_of_getLast?_eq hlast)).1 rfl

/-- The canonical path computed by `findNodeByPath` from any query. -/
theorem findNodeByPath_id {p : String} {nodes : List FlowNode} {n : FlowNode}
    (h : findNodeByPath p nodes = some n) :
    ∃ toks, parseJsonPath p = some toks ∧ n.id = toks.foldl makeChildPath "root" ∧ n ∈ nodes := by
  unfold findNodeByPath at h
  cases hp : parseJsonPath p with
  | none => rw [hp] at h; simp at h
  | some toks =>
      rw [hp] at h
      simp only at h
      refine ⟨toks, rfl, ?_, List.mem_of_find?_eq_some h⟩
      have := List.find?_some h
      simpa using this

/-! ## Claim C10 -/

/-- C10: Every token a successful `parseJsonPath` run emits is a
non-empty string, so no query composes a canonical path with an empty
key segment; in the graph of `{"": 1}` the node `root.` exists but no
query passed to the resolver can return it. -/
theorem c10_no_empty_tokens :
    (∀ (s : String) (toks : List String), parseJsonPath s = some toks →
       ∀ t ∈ toks, t ≠ "") ∧
    "root." ∈ (buildFlowFromJSON exEmptyKey).1.map (fun n => n.id) ∧
    (∀ (p : String) (n : FlowNode),
       findNodeByPath p (buildFlowFromJSON exEmptyKey).1 = some n → n.id ≠ "root.") := by
  refine ⟨?_, by decide, ?_⟩
  · intro s toks h t ht
    exact ne_empty_iff_data.mpr (parse_goodTok h t ht).1
  · intro p n h
    obtain ⟨toks, hp, hid, _⟩ := findNodeByPath_id h
    have hfold := foldl_makeChildPath_last (parse_goodTok hp) "root" (by decide) (by decide)
    intro heq
    rw [heq] at hid
    exact hfold.2 (by rw [← hid]; decide)

/-- Witness for C10 at concrete inputs. -/
theorem c10_no_empty_tokens_witness :
    parseJsonPath "a.b" = some ["a", "b"] ∧ ("a" : String) ≠ "" :=
  ⟨by decide, c10_no_empty_tokens.1 "a.b" ["a", "b"] (by decide) "a" (by decide)⟩

/-! ## Claim C3 -/

/-- C3 counterexample: the claim says the query `items[0].id` is
normalized to `$.items[0].id`; the code leaves any query containing
`[` unchanged. -/
theorem c3_scenario_b_counterexample :
    normalizeQuery "items[0].id" ≠ "$.items[0].id" := by decide

/-- C3 (amended): against the graph built from `{"items":[{"id":1}]}`,
the query `items[0].id` is left unchanged by normalization (it
contains `[`), tokenizes to `["items", "[0]", "id"]`, and resolves to
the node with id `root.items[0].id`. -/
theorem c3_scenario_b :
    normalizeQuery "items[0].id" = "items[0].id" ∧
    parseJsonPath "items[0].id" = some ["items", "[0]", "id"] ∧
    (resolveQuery "items[0].id" (buildFlowFromJSON exScenarioB).1).map (fun n => n.id) =
      some "root.items[0].id" := by
  refine ⟨by decide, by decide, by decide⟩

/-! ## Claim C7 -/

/-- C7: when the raw text does not parse as JSON, `visualize` leaves
the JSON value (hence the derived graph) and the raw text unchanged
and only sets the error message; the builder input is untouched. -/
theorem c7_invalid_input_atomic (parse : String → Option JsonValue) (st : AppModel)
    (h : parse st.raw = none) :
    (visualize parse st).json = st.json ∧
    buildFlowFromJSON (visualize parse st).json = buildFlowFromJSON st.json ∧
    (visualize parse st).raw = st.raw ∧
    (visualize parse st).error = invalidJsonMsg := by
  unfold visualize
  simp [h]

/-- Witness for C7 at a concrete failing parse. -/
theorem c7_invalid_input_atomic_witness :
    (visualize (fun _ => none) ⟨"notjson", "", JsonValue.null⟩).json = JsonValue.null ∧
    (visualize (fun _ => none) ⟨"notjson", "", JsonValue.null⟩).error = invalidJsonMsg := by
  have h := c7_invalid_input_atomic (fun _ => none) ⟨"notjson", "", JsonValue.null⟩ rfl
  exact ⟨h.1, h.2.2.2⟩

/-! ## Counterexamples to C1, C2, C6 -/

/-- C1 counterexample: the node `root.a[` produced for `{"a[": 1}`
strips to the query `a[`, whose tokenization fails, so resolution
returns no node at all rather than a node with the original id. -/
theorem c1_round_trip_counterexample :
    "root.a[" ∈ (buildFlowFromJSON exBracketKey).1.map (fun n => n.id) ∧
    stripRootLead "root.a[" = "a[" ∧
    resolveQuery "a[" (buildFlowFromJSON exBracketKey).1 = none := by
  refine ⟨by decide, by decide, by decide⟩

/-- C2 counterexample: for `{"a.b": 1, "a": {"b": 2}}` two distinct
tree positions receive the same canonical path `root.a.b`, so the
produced ids are not pairwise distinct. -/
theorem c2_unique_ids_counterexample :
    (buildFlowFromJSON exDotKey).1.map (fun n => n.id) =
      ["root", "root.a.b", "root.a", "root.a.b"] ∧
    ¬ ((buildFlowFromJSON exDotKey).1.map (fun n => n.id)).Nodup := by
  refine ⟨by decide, by decide⟩

/-- C6 counterexample: for `{"a.b": 1, "a": {"b": 2}}` the non-root
node id `root.a.b` has two incoming edges, so the edge set is not a
tree on the produced node ids. -/
theorem c6_tree_shape_counterexample :
    "root.a.b" ∈ (buildFlowFromJSON exDotKey).1.map (fun n => n.id) ∧
    "root.a.b" ≠ "root" ∧
    (buildFlowFromJSON exDotKey).2.countP (fun e => e.target = "root.a.b") = 2 := by
  refine ⟨by decide, by decide, by decide⟩

/-! ## Claim C9: trimming -/

theorem dropWhile_idem (p : Char → Bool) (l : List Char) :
    (l.dropWhile p).dropWhile p = l.dropWhile p := by
  induction l with
  | nil => rfl
  | cons a l ih =>
      by_cases h : p a
      · simp [List.dropWhile_cons, h, ih]
      · simp [List.dropWhile_cons, h]

theorem dropWhile_head_false {p : Char → Bool} {l : List Char} {a : Char} {u : List Char}
    (h : l.dropWhile p = a :: u) : p a = false := by
  induction l with
  | nil => simp at h
  | cons x xs ih =>
      rw [List.dropWhile_cons] at h
      by_cases hx : p x
      · rw [if_pos hx] at h
        exact ih h
      · rw [if_neg hx] at h
        obtain ⟨rfl, _⟩ : x = a ∧ xs = u := by
          constructor <;> injection h
        simpa using hx

theorem trimChars_idem (cs : List Char) : trimChars (trimChars cs) = trimChars cs := by
  unfold trimChars
  set m := cs.dropWhile jsWhitespace with hm
  have hLm : m.dropWhile jsWhitespace = m := by rw [hm]; exact dropWhile_idem _ cs
  set rt := (m.reverse.dropWhile jsWhitespace).reverse with hrt
  have hsuffix : ∃ pre, pre ++ m.reverse.dropWhile jsWhitespace = m.reverse := by
    obtain ⟨pre, hp⟩ := (List.dropWhile_suffix (l := m.reverse) jsWhitespace)
    exact ⟨pre, hp⟩
  have hpre : ∃ pre, rt ++ pre = m := by
    obtain ⟨pre, hp⟩ := hsuffix
    refine ⟨pre.reverse, ?_⟩
    have := congrArg List.reverse hp
    simpa [hrt] using this
  have hLrt : rt.dropWhile jsWhitespace = rt := by
    cases hr : rt with
    | nil => rfl
    | cons a u =>
        obtain ⟨pre, hp⟩ := hpre
        rw [hr] at hp
        have hma : m = a :: (u ++ pre) := by rw [← hp]; simp
        have : jsWhitespace a = false := by
          apply dropWhile_head_false (l := m)
          rw [hLm, hma]
        rw [List.dropWhile_cons, this]
        simp
  rw [hLrt, List.reverse_reverse, dropWhile_idem]

/-- C9: tokenization is insensitive to leading/trailing whitespace
(the tokenizer trims its input first), and a whitespace-only input
tokenizes to the empty sequence. -/
theorem c9_trim_insensitive :
    (∀ s : String, parseJsonPath s = parseJsonPath (String.mk (trimChars s.data))) ∧
    (∀ s : String, (∀ c ∈ s.data, jsWhitespace c = true) → parseJsonPath s = some []) := by
  have key : ∀ s : String, parseJsonPath s = parseJsonPath (String.mk (trimChars s.data)) := by
    intro s
    by_cases hs : s = ""
    · subst hs; rfl
    · by_cases ht : trimChars s.data = []
      · rw [show String.mk (trimChars s.data) = "" by rw [ht]]
        unfold parseJsonPath
        rw [if_neg hs, if_pos rfl, ht]
        rfl
      · have hmk : String.mk (trimChars s.data) ≠ "" := by
          rw [ne_empty_iff_data, data_mk]
          exact ht
        unfold parseJsonPath
        rw [if_neg hs, if_neg hmk, data_mk, trimChars_idem]
  refine ⟨key, ?_⟩
  intro s hws
  rw [key s]
  have ht : trimChars s.data = [] := by
    unfold trimChars
    rw [List.dropWhile_eq_nil_iff.mpr hws]
    rfl
  rw [show String.mk (trimChars s.data) = "" by rw [ht]]
  rfl

/-- Witness for C9 at a whitespace-only input. -/
theorem c9_trim_insensitive_witness : parseJsonPath "  " = some [] :=
  c9_trim_insensitive.2 "  " (by decide)

/-! ## Claim C5: tokenizer failure conditions -/

theorem scan_fail_iff :
    ∀ cs : List Char,
      (∀ buf toks, (scan cs (.top buf) toks = none ↔ specFailsAux cs none = true)) ∧
      (∀ acc toks, (scan cs (.bracket acc) toks = none ↔ specFailsAux cs (some acc) = true)) ∧
      (∀ toks, (scan cs .afterBracket toks = none ↔ specFailsAux cs none = true)) := by
  intro cs
  induction cs with
  | nil =>
      refine ⟨fun buf toks => ?_, fun acc toks => ?_, fun toks => ?_⟩ <;>
        simp [scan, specFailsAux]
  | cons c l ih =>
      obtain ⟨ih1, ih2, ih3⟩ := ih
      refine ⟨fun buf toks => ?_, fun acc toks => ?_, fun toks => ?_⟩ <;>
        · simp only [scan, specFailsAux]
          split_ifs <;>
            first
              | exact ih1 _ _
              | exact ih2 _ _
              | exact ih3 _
              | simp_all

/-- C5: the tokenizer fails exactly when the post-strip scan hits an
unterminated bracket segment or bracket content whose trimmed form is
not a digit string; any such failure makes the resolver return no
node, in particular for the query `items[a]` against any node set. -/
theorem c5_tokenizer_failure :
    (∀ s : String, (parseJsonPath s = none ↔
        specFails (stripLead (trimChars s.data)) = true)) ∧
    (∀ (s : String) (nodes : List FlowNode), parseJsonPath s = none →
       findNodeByPath s nodes = none) ∧
    (∀ nodes : List FlowNode, findNodeByPath "items[a]" nodes = none) := by
  refine ⟨?_, ?_, ?_⟩
  · intro s
    by_cases hs : s = ""
    · subst hs; decide
    · unfold parseJsonPath
      rw [if_neg hs, Option.map_eq_none']
      exact (scan_fail_iff _).1 [] []
  · intro s nodes h
    unfold findNodeByPath
    rw [h]
  · intro nodes
    unfold findNodeByPath
    rw [show parseJsonPath "items[a]" = none by decide]

/-- Witness for C5 at concrete inputs. -/
theorem c5_tokenizer_failure_witness :
    findNodeByPath "items[" ([] : List FlowNode) = none ∧
    (parseJsonPath "items[a]" = none ↔
      specFails (stripLead (trimChars ("items[a]" : String).data)) = true) :=
  ⟨c5_tokenizer_failure.2.1 "items[" [] (by decide), c5_tokenizer_failure.1 "items[a]"⟩

/-! ## Claim C8: leading-zero indices -/

theorem stripLead_eq_self {cs : List Char} (h1 : cs.head? ≠ some '$')
    (h2 : cs.head? ≠ some '.') : stripLead cs = cs := by
  unfold stripLead
  rw [if_neg h1, if_neg h2]

/-- C8: any non-empty digit string is accepted as a bracket index and
emitted verbatim, so `a[01]` parses yet fails to resolve against
`{"a": [10, 20]}`, while `a[1]` resolves to `root.a[1]`. -/
theorem c8_leading_zero_index (ds : String) (h1 : ds ≠ "")
    (h2 : ∀ c ∈ ds.data, isDigitCh c = true) :
    parseJsonPath ("a[" ++ ds ++ "]") = some ["a", "[" ++ ds ++ "]"] ∧
    findNodeByPath "a[01]" (buildFlowFromJSON exArrayDoc).1 = none ∧
    (findNodeByPath "a[1]" (buildFlowFromJSON exArrayDoc).1).map (fun n => n.id) =
      some "root.a[1]" := by
  refine ⟨?_, by decide, by decide⟩
  have hdd : ds.data ≠ [] := ne_empty_iff_data.mp h1
  have hq : ("a[" ++ ds ++ "]").data = 'a' :: '[' :: (ds.data ++ [']']) := by
    rw [append_data, append_data]
    rfl
  have hqne : ("a[" ++ ds ++ "]" : String) ≠ "" := by
    rw [ne_empty_iff_data, hq]
    simp
  have hws : ∀ c ∈ 'a' :: '[' :: (ds.data ++ [']']), jsWhitespace c = false := by
    intro c hc
    rcases hc with _ | ⟨_, hc⟩
    · decide
    · rcases List.mem_cons.mp hc with rfl | hc
      · decide
      · rcases List.mem_append.mp hc with hc | hc
        · exact jsWhitespace_eq_false_of_digit (h2 c hc)
        · simp only [List.mem_singleton] at hc
          subst hc
          decide
  have hdig : ∀ c ∈ ds.data, c ≠ ']' :=
    fun c hc => (digit_not_special (h2 c hc)).2.2.1
  have hdw : ∀ c ∈ ds.data, jsWhitespace c = false :=
    fun c hc => jsWhitespace_eq_false_of_digit (h2 c hc)
  unfold parseJsonPath
  rw [if_neg hqne, hq, trimChars_eq_self hws,
    stripLead_eq_self (by simp) (by simp)]
  have s1 : scan ('a' :: '[' :: (ds.data ++ [']'])) (.top []) [] =
      scan (ds.data ++ [']']) (.bracket []) ["a"] := by
    simp [scan, flushBuf]
  have s2 : scan (ds.data ++ [']']) (.bracket []) ["a"] =
      scan [']'] (.bracket ds.data) ["a"] := by
    simpa using scan_bracket_chars hdig [']'] [] ["a"]
  have s3 : scan [']'] (.bracket ds.data) ["a"] =
      some ["a", String.mk ('[' :: ds.data ++ [']'])] := by
    have hcond : trimChars ds.data ≠ [] ∧ (trimChars ds.data).all isDigitCh := by
      rw [trimChars_eq_self hdw]
      exact ⟨hdd, by rw [List.all_eq_true]; exact h2⟩
    simp only [scan]
    rw [if_pos hcond, trimChars_eq_self hdw]
    simp [scan]
  rw [s1, s2, s3]
  have htok : String.mk ('[' :: ds.data ++ [']']) = "[" ++ ds ++ "]" := by
    apply string_ext
    rw [data_mk, append_data, append_data]
    rfl
  rw [htok]
  have hbne : ("[" ++ ds ++ "]" : String) ≠ "" := by
    rw [ne_empty_iff_data, append_data, append_data]
    simp
  simp [List.filter, hbne, decide_eq_true_eq]

/-- Witness for C8 at the digit string `01`. -/
theorem c8_leading_zero_index_witness :
    parseJsonPath "a[01]" = some ["a", "[01]"] ∧
    findNodeByPath "a[01]" (buildFlowFromJSON exArrayDoc).1 = none := by
  have h := c8_leading_zero_index "01" (by decide) (by decide)
  refine ⟨?_, h.2.1⟩
  have h1 := h.1
  rw [show ("a[" ++ "01" ++ "]" : String) = "a[01]" from by decide,
    show ("[" ++ "01" ++ "]" : String) = "[01]" from by decide] at h1
  exact h1

/-! ## Claim C4: the layout formula -/

theorem specVisit_append (l1 l2 : List Nat) :
    ∀ ctrs, specVisit (l1 ++ l2) ctrs =
      ((specVisit l1 ctrs).1 ++ (specVisit l2 (specVisit l1 ctrs).2).1,
       (specVisit l2 (specVisit l1 ctrs).2).2) := by
  induction l1 with
  | nil => intro ctrs; simp [specVisit]
  | cons d ds ih =>
      intro ctrs
      simp [specVisit, ih]

theorem addNode_nodes_map (st : BuildState) (id label type : String) (depth : Nat)
    (tooltip : String) :
    (addNode st id label type depth tooltip).nodes.map posXY =
      st.nodes.map posXY ++
        [(((lookupDepth st.leafOrderAtDepth depth).getD 0 : Int) * 260, (depth : Int) * 110)] := by
  unfold addNode
  simp [posXY]

theorem addNode_leaf (st : BuildState) (id label type : String) (depth : Nat)
    (tooltip : String) :
    (addNode st id label type depth tooltip).leafOrderAtDepth =
      setDepth st.leafOrderAtDepth depth ((lookupDepth st.leafOrderAtDepth depth).getD 0 + 1) :=
  rfl

mutual
theorem traverse_spec :
    ∀ (v : JsonValue) (path : String) (depth : Nat) (parent : Option String)
      (kl : String) (st : BuildState),
      (traverse v path depth parent kl st).nodes.map posXY =
        st.nodes.map posXY ++ (specVisit (specDepths v depth) st.leafOrderAtDepth).1 ∧
      (traverse v path depth parent kl st).leafOrderAtDepth =
        (specVisit (specDepths v depth) st.leafOrderAtDepth).2
  | v, path, depth, parent, kl, st => by
      cases v with
      | obj fs =>
          cases parent with
          | none =>
              refine ⟨?_, ?_⟩
              · simp only [traverse]
                rw [(traverseFields_spec fs path depth _ _).1]
                simp [addNode_nodes_map, addNode_leaf, specDepths, specVisit,
                  List.append_assoc]
              · simp only [traverse]
                rw [(traverseFields_spec fs path depth _ _).2]
                simp [addNode_leaf, specDepths, specVisit]
          | some pid =>
              refine ⟨?_, ?_⟩
              · simp only [traverse]
                rw [(traverseFields_spec fs path depth _ _).1]
                simp [addNode_nodes_map, addNode_leaf, specDepths, specVisit,
                  List.append_assoc]
              · simp only [traverse]
                rw [(traverseFields_spec fs path depth _ _).2]
                simp [addNode_leaf, specDepths, specVisit]
      | arr xs =>
          cases parent with
          | none =>
              refine ⟨?_, ?_⟩
              · simp only [traverse]
                rw [(traverseElems_spec xs 0 path depth _ _).1]
                simp [addNode_nodes_map, addNode_leaf, specDepths, specVisit,
                  List.append_assoc]
              · simp only [traverse]
                rw [(traverseElems_spec xs 0 path depth _ _).2]
                simp [addNode_leaf, specDepths, specVisit]
          | some pid =>
              refine ⟨?_, ?_⟩
              · simp only [traverse]
                rw [(traverseElems_spec xs 0 path depth _ _).1]
                simp [addNode_nodes_map, addNode_leaf, specDepths, specVisit,
                  List.append_assoc]
              · simp only [traverse]
                rw [(traverseElems_spec xs 0 path depth _ _).2]
                simp [addNode_leaf, specDepths, specVisit]
      | str s =>
          cases parent <;> refine ⟨?_, ?_⟩ <;>
            simp [traverse, addNode, posXY, specDepths, specVisit]
      | num n =>
          cases parent <;> refine ⟨?_, ?_⟩ <;>
            simp [traverse, addNode, posXY, specDepths, specVisit]
      | bool b =>
          cases parent <;> refine ⟨?_, ?_⟩ <;>
            simp [traverse, addNode, posXY, specDepths, specVisit]
      | null =>
          cases parent <;> refine ⟨?_, ?_⟩ <;>
            simp [traverse, addNode, posXY, specDepths, specVisit]

theorem traverseFields_spec :
    ∀ (fs : List (String × JsonValue)) (path : String) (depth : Nat) (pid : String)
      (st : BuildState),
      (traverseFields fs path depth pid st).nodes.map posXY =
        st.nodes.map posXY ++ (specVisit (specDepthsFields fs depth) st.leafOrderAtDepth).1 ∧
      (traverseFields fs path depth pid st).leafOrderAtDepth =
        (specVisit (specDepthsFields fs depth) st.leafOrderAtDepth).2
  | [], path, depth, pid, st => by simp [traverseFields, specDepthsFields, specVisit]
  | (k, v) :: rest, path, depth, pid, st => by
      have hv := traverse_spec v (makeChildPath path k) (depth + 1) (some pid) k st
      have hrest := traverseFields_spec rest path depth pid
        (traverse v (makeChildPath path k) (depth + 1) (some pid) k st)
      simp only [traverseFields, specDepthsFields]
      rw [specVisit_append]
      refine ⟨?_, ?_⟩
      · rw [hrest.1, hv.1, hv.2, List.append_assoc]
      · rw [hrest.2, hv.2]

theorem traverseElems_spec :
    ∀ (xs : List JsonValue) (i : Nat) (path : String) (depth : Nat) (pid : String)
      (st : BuildState),
      (traverseElems xs i path depth pid st).nodes.map posXY =
        st.nodes.map posXY ++ (specVisit (specDepthsElems xs depth) st.leafOrderAtDepth).1 ∧
      (traverseElems xs i path depth pid st).leafOrderAtDepth =
        (specVisit (specDepthsElems xs depth) st.leafOrderAtDepth).2
  | [], i, path, depth, pid, st => by simp [traverseElems, specDepthsElems, specVisit]
  | v :: rest, i, path, depth, pid, st => by
      have hv := traverse_spec v (makeChildPath path ("[" ++ natToStr i ++ "]"))
        (depth + 1) (some pid) ("[" ++ natToStr i ++ "]") st
      have hrest := traverseElems_spec rest (i + 1) path depth pid
        (traverse v (makeChildPath path ("[" ++ natToStr i ++ "]")) (depth + 1) (some pid)
          ("[" ++ natToStr i ++ "]") st)
      simp only [traverseElems, specDepthsElems]
      rw [specVisit_append]
      refine ⟨?_, ?_⟩
      · rw [hrest.1, hv.1, hv.2, List.append_assoc]
      · rw [hrest.2, hv.2]
end

/-- C4: the builder's node positions are exactly the spec's layout:
depth-first pre-order visits with one running counter per depth
(shared across subtrees, never reset) give `(c * 260, d * 110)`, and
afterwards `centerX = (maxCols - 1) * 260 / 2` — computed from the
maximum per-depth counter (1 if none) — is subtracted from every `x`
while `y` is unchanged. -/
theorem c4_layout (v : JsonValue) :
    (buildFlowFromJSON v).1.map posXY = specLayout v := by
  obtain ⟨h1, h2⟩ := traverse_spec v "root" 0 none "root" ⟨[], [], []⟩
  simp only [List.map_nil, List.nil_append] at h1
  simp only [buildFlowFromJSON, specLayout]
  rw [h2, ← h1, List.map_map, List.map_map]
  exact List.map_congr_left (fun a _ => rfl)

/-! ## Node ids of the traversal -/

theorem addNode_ids (st : BuildState) (id label type : String) (depth : Nat)
    (tooltip : String) :
    (addNode st id label type depth tooltip).nodes.map (fun n => n.id) =
      st.nodes.map (fun n => n.id) ++ [id] := by
  unfold addNode
  simp

mutual
theorem traverse_ids :
    ∀ (v : JsonValue) (path : String) (depth : Nat) (parent : Option String)
      (kl : String) (st : BuildState),
      (traverse v path depth parent kl st).nodes.map (fun n => n.id) =
        st.nodes.map (fun n => n.id) ++ idsOf v path kl
  | v, path, depth, parent, kl, st => by
      cases v with
      | obj fs =>
          cases parent with
          | none =>
              simp only [traverse]
              rw [traverseFields_ids fs path depth _ _]
              simp [addNode_ids, idsOf, List.append_assoc]
          | some pid =>
              simp only [traverse]
              rw [traverseFields_ids fs path depth _ _]
              simp [addNode_ids, idsOf, List.append_assoc]
      | arr xs =>
          cases parent with
          | none =>
              simp only [traverse]
              rw [traverseElems_ids xs 0 path depth _ _]
              simp [addNode_ids, idsOf, List.append_assoc]
          | some pid =>
              simp only [traverse]
              rw [traverseElems_ids xs 0 path depth _ _]
              simp [addNode_ids, idsOf, List.append_assoc]
      | str s => cases parent <;> simp [traverse, addNode, idsOf]
      | num n => cases parent <;> simp [traverse, addNode, idsOf]
      | bool b => cases parent <;> simp [traverse, addNode, idsOf]
      | null => cases parent <;> simp [traverse, addNode, idsOf]

theorem traverseFields_ids :
    ∀ (fs : List (String × JsonValue)) (path : String) (depth : Nat) (pid : String)
      (st : BuildState),
      (traverseFields fs path depth pid st).nodes.map (fun n => n.id) =
        st.nodes.map (fun n => n.id) ++ idsFields fs path
  | [], path, depth, pid, st => by simp [traverseFields, idsFields]
  | (k, v) :: rest, path, depth, pid, st => by
      simp only [traverseFields]
      rw [traverseFields_ids rest path depth pid _, traverse_ids v _ _ _ _ _]
      simp [idsFields, List.append_assoc]

theorem traverseElems_ids :
    ∀ (xs : List JsonValue) (i : Nat) (path : String) (depth : Nat) (pid : String)
      (st : BuildState),
      (traverseElems xs i path depth pid st).nodes.map (fun n => n.id) =
        st.nodes.map (fun n => n.id) ++ idsElems xs i path
  | [], i, path, depth, pid, st => by simp [traverseElems, idsElems]
  | v :: rest, i, path, depth, pid, st => by
      simp only [traverseElems]
      rw [traverseElems_ids rest (i + 1) path depth pid _, traverse_ids v _ _ _ _ _]
      simp [idsElems, List.append_assoc]
end

theorem build_ids (v : JsonValue) :
    (buildFlowFromJSON v).1.map (fun n => n.id) = idsOf v "root" "root" := by
  simp only [buildFlowFromJSON]
  rw [List.map_map]
  have h := traverse_ids v "root" 0 none "root" ⟨[], [], []⟩
  simp only [List.map_nil, List.nil_append] at h
  rw [← h]
  exact List.map_congr_left (fun a _ => rfl)

/-! ## Ids as rendered positions -/

theorem bracketTok_head (i : Nat) : ("[" ++ natToStr i ++ "]").data.head? = some '[' := by
  rw [append_data, append_data]
  rfl

theorem pathSafeKey_chars {k : String} (h : pathSafeKey k = true) :
    ∀ c ∈ k.data, c ≠ '.' ∧ c ≠ '[' := by
  intro c hc
  unfold pathSafeKey at h
  rw [List.all_eq_true] at h
  have hck := h c hc
  simp only [Bool.and_eq_true, Bool.not_eq_true', beq_eq_false_iff_ne, ne_eq] at hck
  exact hck

theorem pathSafeKey_head {k : String} (h : pathSafeKey k = true) :
    k.data.head? ≠ some '[' := by
  intro hh
  have hm : '[' ∈ k.data := List.mem_of_mem_head? (by simp [hh])
  exact (pathSafeKey_chars h '[' hm).2 rfl

theorem append_renderSegs_key (p k : String) (s : List Seg) :
    p ++ "." ++ k ++ renderSegs s = p ++ renderSegs (.key k :: s) := by
  apply string_ext
  simp [append_data, renderSegs, data_mk, renderChars_cons, segChars]

theorem append_renderSegs_idx (p : String) (i : Nat) (s : List Seg) :
    p ++ ("[" ++ natToStr i ++ "]") ++ renderSegs s = p ++ renderSegs (.idx i :: s) := by
  apply string_ext
  simp [append_data, renderSegs, data_mk, renderChars_cons, segChars]

theorem append_ne_empty_left {p : String} (q : String) (hp : p ≠ "") : p ++ q ≠ "" := by
  rw [ne_empty_iff_data, append_data]
  simp [ne_empty_iff_data.mp hp]

theorem renderSegs_nil : renderSegs [] = "" := rfl

mutual
theorem idsOf_positions :
    ∀ (v : JsonValue) (path kl : String), path ≠ "" → pathKeysOk v = true →
      idsOf v path kl = (positionsOf v).map (fun segs => path ++ renderSegs segs)
  | v, path, kl, hp, hok => by
      cases v with
      | obj fs =>
          simp only [idsOf, positionsOf, List.map_cons, if_neg hp, renderSegs_nil,
            String.append_empty]
          rw [idsFields_positions fs path hp (by simpa [pathKeysOk] using hok)]
      | arr xs =>
          simp only [idsOf, positionsOf, List.map_cons, if_neg hp, renderSegs_nil,
            String.append_empty]
          rw [idsElems_positions xs 0 path hp (by simpa [pathKeysOk] using hok)]
      | str s => simp [idsOf, positionsOf, if_neg hp, renderSegs_nil, String.append_empty]
      | num n => simp [idsOf, positionsOf, if_neg hp, renderSegs_nil, String.append_empty]
      | bool b => simp [idsOf, positionsOf, if_neg hp, renderSegs_nil, String.append_empty]
      | null => simp [idsOf, positionsOf, if_neg hp, renderSegs_nil, String.append_empty]

theorem idsFields_positions :
    ∀ (fs : List (String × JsonValue)) (path : String), path ≠ "" →
      pathKeysFields fs = true →
      idsFields fs path = (positionsFields fs).map (fun segs => path ++ renderSegs segs)
  | [], path, hp, hok => by simp [idsFields, positionsFields]
  | (k, v) :: rest, path, hp, hok => by
      have hok' : pathSafeKey k = true ∧ pathKeysOk v = true ∧ pathKeysFields rest = true := by
        simpa [pathKeysFields, Bool.and_eq_true, and_assoc] using hok
      have hmk : makeChildPath path k = path ++ "." ++ k :=
        makeChildPath_key hp (pathSafeKey_head hok'.1)
      have hne : makeChildPath path k ≠ "" := by
        rw [hmk]
        exact append_ne_empty_left _ (append_ne_empty_left _ hp)
      simp only [idsFields, positionsFields, List.map_append, List.map_map]
      rw [idsOf_positions v _ k hne hok'.2.1, idsFields_positions rest path hp hok'.2.2]
      congr 1
      apply List.map_congr_left
      intro s _
      simp only [Function.comp_apply]
      rw [hmk, append_renderSegs_key]

theorem idsElems_positions :
    ∀ (xs : List JsonValue) (i : Nat) (path : String), path ≠ "" →
      pathKeysElems xs = true →
      idsElems xs i path = (positionsElems xs i).map (fun segs => path ++ renderSegs segs)
  | [], i, path, hp, hok => by simp [idsElems, positionsElems]
  | v :: rest, i, path, hp, hok => by
      have hok' : pathKeysOk v = true ∧ pathKeysElems rest = true := by
        simpa [pathKeysElems, Bool.and_eq_true] using hok
      have hmk : makeChildPath path ("[" ++ natToStr i ++ "]") =
          path ++ ("[" ++ natToStr i ++ "]") :=
        makeChildPath_bracket hp (bracketTok_head i)
      have hne : makeChildPath path ("[" ++ natToStr i ++ "]") ≠ "" := by
        rw [hmk]
        exact append_ne_empty_left _ hp
      simp only [idsElems, positionsElems, List.map_append, List.map_map]
      rw [idsOf_positions v _ _ hne hok'.1,
        idsElems_positions rest (i + 1) path hp hok'.2]
      congr 1
      apply List.map_congr_left
      intro s _
      simp only [Function.comp_apply]
      rw [hmk, append_renderSegs_idx]
end

theorem positionsOf_head (v : JsonValue) : ∃ rest, positionsOf v = [] :: rest := by
  cases v <;> exact ⟨_, rfl⟩

/-! ## Distinctness of tree positions -/

theorem positionsFields_head :
    ∀ (fs : List (String × JsonValue)) (segs : List Seg), segs ∈ positionsFields fs →
      ∃ k t, segs = Seg.key k :: t ∧ k ∈ fs.map Prod.fst := by
  intro fs
  induction fs with
  | nil => intro segs h; simp [positionsFields] at h
  | cons kv rest ih =>
      intro segs h
      obtain ⟨k, v⟩ := kv
      simp only [positionsFields] at h
      rcases List.mem_append.mp h with h | h
      · obtain ⟨s, _, rfl⟩ := List.mem_map.mp h
        exact ⟨k, s, rfl, by simp⟩
      · obtain ⟨k', t, rfl, hk'⟩ := ih segs h
        exact ⟨k', t, rfl, by simp [hk']⟩

theorem positionsElems_head :
    ∀ (xs : List JsonValue) (i : Nat) (segs : List Seg), segs ∈ positionsElems xs i →
      ∃ j t, segs = Seg.idx j :: t ∧ i ≤ j := by
  intro xs
  induction xs with
  | nil => intro i segs h; simp [positionsElems] at h
  | cons v rest ih =>
      intro i segs h
      simp only [positionsElems] at h
      rcases List.mem_append.mp h with h | h
      · obtain ⟨s, _, rfl⟩ := List.mem_map.mp h
        exact ⟨i, s, rfl, Nat.le_refl i⟩
      · obtain ⟨j, t, rfl, hj⟩ := ih (i + 1) segs h
        exact ⟨j, t, rfl, by omega⟩

mutual
theorem positionsOf_nodup : ∀ v : JsonValue, uniqJson v = true → (positionsOf v).Nodup
  | v, h => by
      cases v with
      | obj fs =>
          have h' : (fs.map Prod.fst).Nodup ∧ uniqFields fs = true := by
            simpa [uniqJson, Bool.and_eq_true, decide_eq_true_eq] using h
          simp only [positionsOf]
          rw [List.nodup_cons]
          refine ⟨?_, positionsFields_nodup fs h'.1 h'.2⟩
          intro hmem
          obtain ⟨k, t, heq, _⟩ := positionsFields_head fs [] hmem
          simp at heq
      | arr xs =>
          have h' : uniqElems xs = true := by simpa [uniqJson] using h
          simp only [positionsOf]
          rw [List.nodup_cons]
          refine ⟨?_, positionsElems_nodup xs 0 h'⟩
          intro hmem
          obtain ⟨j, t, heq, _⟩ := positionsElems_head xs 0 [] hmem
          simp at heq
      | str s => simp [positionsOf]
      | num n => simp [positionsOf]
      | bool b => simp [positionsOf]
      | null => simp [positionsOf]

theorem positionsFields_nodup :
    ∀ fs : List (String × JsonValue), (fs.map Prod.fst).Nodup → uniqFields fs = true →
      (positionsFields fs).Nodup
  | [], _, _ => by simp [positionsFields]
  | (k, v) :: rest, hkeys, h => by
      have h' : pathSafeKey k = true ∧ uniqJson v = true ∧ uniqFields rest = true := by
        simpa [uniqFields, Bool.and_eq_true, and_assoc] using h
      have hkeys' : k ∉ rest.map Prod.fst ∧ (rest.map Prod.fst).Nodup := by
        simpa [List.nodup_cons] using hkeys
      simp only [positionsFields]
      rw [List.nodup_append]
      refine ⟨?_, positionsFields_nodup rest hkeys'.2 h'.2.2, ?_⟩
      · exact List.Nodup.map (fun a b hab => by simpa using hab)
          (positionsOf_nodup v h'.2.1)
      · intro segs hseg1 hseg2
        obtain ⟨s, _, rfl⟩ := List.mem_map.mp hseg1
        obtain ⟨k', t, heq, hk'⟩ := positionsFields_head rest _ hseg2
        have hkk : k = k' := by
          have := heq
          simp only [List.cons.injEq, Seg.key.injEq] at this
          exact this.1
        exact hkeys'.1 (hkk ▸ hk')

theorem positionsElems_nodup :
    ∀ (xs : List JsonValue) (i : Nat), uniqElems xs = true → (positionsElems xs i).Nodup
  | [], _, _ => by simp [positionsElems]
  | v :: rest, i, h => by
      have h' : uniqJson v = true ∧ uniqElems rest = true := by
        simpa [uniqElems, Bool.and_eq_true] using h
      simp only [positionsElems]
      rw [List.nodup_append]
      refine ⟨?_, positionsElems_nodup rest (i + 1) h'.2, ?_⟩
      · exact List.Nodup.map (fun a b hab => by simpa using hab)
          (positionsOf_nodup v h'.1)
      · intro segs hseg1 hseg2
        obtain ⟨s, _, rfl⟩ := List.mem_map.mp hseg1
        obtain ⟨j, t, heq, hj⟩ := positionsElems_head rest (i + 1) _ hseg2
        have hij : i = j := by
          have := heq
          simp only [List.cons.injEq, Seg.idx.injEq] at this
          exact this.1
        omega
end

/-! ## Injectivity of path rendering -/

theorem segChars_head_cases (s : Seg) :
    ∃ c t, segChars s = c :: t ∧ (c = '.' ∨ c = '[') := by
  cases s with
  | key k => exact ⟨'.', k.data, rfl, Or.inl rfl⟩
  | idx i => exact ⟨'[', (natToStr i).data ++ [']'], rfl, Or.inr rfl⟩

theorem renderChars_cons_ne_nil (s : Seg) (rest : List Seg) :
    renderChars (s :: rest) ≠ [] := by
  obtain ⟨c, t, hct, _⟩ := segChars_head_cases s
  rw [renderChars_cons, hct]
  simp

theorem takeWhile_key_append {k : String} (hk : ∀ c ∈ k.data, c ≠ '.' ∧ c ≠ '[')
    (rest : List Seg) :
    (k.data ++ renderChars rest).takeWhile (fun c => !(c == '.') && !(c == '[')) = k.data := by
  rw [List.takeWhile_append]
  have h1 : k.data.takeWhile (fun c => !(c == '.') && !(c == '[')) = k.data := by
    rw [List.takeWhile_eq_self_iff]
    intro c hc
    simp only [Bool.and_eq_true, Bool.not_eq_true', beq_eq_false_iff_ne, ne_eq]
    exact hk c hc
  rw [if_pos (by rw [h1])]
  cases hrest : rest with
  | nil => simp [renderChars]
  | cons s r =>
      obtain ⟨c, t, hct, hc⟩ := segChars_head_cases s
      rw [renderChars_cons, hct]
      have hpc : (!(c == '.') && !(c == '[')) = false := by
        rcases hc with rfl | rfl <;> decide
      simp [List.takeWhile_cons, hpc]

theorem takeWhile_digits_append {ds : List Char} (hd : ∀ c ∈ ds, c ≠ ']')
    (rest : List Char) :
    (ds ++ ']' :: rest).takeWhile (fun c => !(c == ']')) = ds := by
  rw [List.takeWhile_append]
  have h1 : ds.takeWhile (fun c => !(c == ']')) = ds := by
    rw [List.takeWhile_eq_self_iff]
    intro c hc
    simp only [Bool.not_eq_true', beq_eq_false_iff_ne, ne_eq]
    exact hd c hc
  rw [if_pos (by rw [h1])]
  simp [List.takeWhile_cons]

theorem renderChars_inj :
    ∀ s1 s2 : List Seg,
      (∀ k, Seg.key k ∈ s1 → ∀ c ∈ k.data, c ≠ '.' ∧ c ≠ '[') →
      (∀ k, Seg.key k ∈ s2 → ∀ c ∈ k.data, c ≠ '.' ∧ c ≠ '[') →
      renderChars s1 = renderChars s2 → s1 = s2
  | [], [], _, _, _ => rfl
  | [], s :: rest, _, _, h => absurd h.symm (renderChars_cons_ne_nil s rest)
  | s :: rest, [], _, _, h => absurd h (renderChars_cons_ne_nil s rest)
  | .key k1 :: r1, .key k2 :: r2, h1, h2, heq => by
      have htail : k1.data ++ renderChars r1 = k2.data ++ renderChars r2 := by
        rw [renderChars_cons, renderChars_cons] at heq
        simpa [segChars] using heq
      have hk1 := takeWhile_key_append (h1 k1 (by simp)) r1
      have hk2 := takeWhile_key_append (h2 k2 (by simp)) r2
      have hk : k1 = k2 := string_ext (by rw [← hk1, ← hk2, htail])
      subst hk
      have hr := List.append_cancel_left htail
      rw [renderChars_inj r1 r2 (fun k hk => h1 k (by simp [hk]))
        (fun k hk => h2 k (by simp [hk])) hr]
  | .key k1 :: r1, .idx i2 :: r2, h1, h2, heq => by
      rw [renderChars_cons, renderChars_cons] at heq
      simp [segChars] at heq
  | .idx i1 :: r1, .key k2 :: r2, h1, h2, heq => by
      rw [renderChars_cons, renderChars_cons] at heq
      simp [segChars] at heq
  | .idx i1 :: r1, .idx i2 :: r2, h1, h2, heq => by
      have htail : (natToStr i1).data ++ ']' :: renderChars r1 =
          (natToStr i2).data ++ ']' :: renderChars r2 := by
        rw [renderChars_cons, renderChars_cons] at heq
        simpa [segChars] using heq
      have hd1 : ∀ c ∈ (natToStr i1).data, c ≠ ']' :=
        fun c hc => (digit_not_special (natToStr_digits c hc)).2.2.1
      have hd2 : ∀ c ∈ (natToStr i2).data, c ≠ ']' :=
        fun c hc => (digit_not_special (natToStr_digits c hc)).2.2.1
      have ht1 := takeWhile_digits_append hd1 (renderChars r1)
      have ht2 := takeWhile_digits_append hd2 (renderChars r2)
      have hi : i1 = i2 := natToStr_inj (string_ext (by rw [← ht1, ← ht2, htail]))
      subst hi
      have hr : renderChars r1 = renderChars r2 := by
        have := List.append_cancel_left htail
        simpa using this
      rw [renderChars_inj r1 r2 (fun k hk => h1 k (by simp [hk]))
        (fun k hk => h2 k (by simp [hk])) hr]

/-! ## Key-safety implications -/

theorem safeKey_chars {k : String} (h : safeKey k = true) :
    k ≠ "" ∧ (∀ c ∈ k.data, c ≠ '.' ∧ c ≠ '[' ∧ jsWhitespace c = false) ∧
      k.data.head? ≠ some '$' := by
  unfold safeKey at h
  simp only [Bool.and_eq_true, Bool.not_eq_true', beq_eq_false_iff_ne, ne_eq,
    List.all_eq_true] at h
  obtain ⟨⟨hne, hall⟩, hd⟩ := h
  refine ⟨hne, ?_, hd⟩
  intro c hc
  have := hall c hc
  simp only [Bool.and_eq_true, Bool.not_eq_true', beq_eq_false_iff_ne, ne_eq] at this
  exact ⟨this.1.1, this.1.2, this.2⟩

theorem safeKey_pathSafe {k : String} (h : safeKey k = true) : pathSafeKey k = true := by
  have hc := (safeKey_chars h).2.1
  unfold pathSafeKey
  rw [List.all_eq_true]
  intro c hcm
  simp only [Bool.and_eq_true, Bool.not_eq_true', beq_eq_false_iff_ne, ne_eq]
  exact ⟨(hc c hcm).1, (hc c hcm).2.1⟩

mutual
theorem uniq_imp_pathKeys : ∀ v : JsonValue, uniqJson v = true → pathKeysOk v = true
  | v, h => by
      cases v with
      | obj fs =>
          have h' : uniqFields fs = true := by
            simpa [uniqJson, Bool.and_eq_true] using (by simpa [uniqJson] using h : _ ∧ _).2
          simpa [pathKeysOk] using uniqF_imp_pathKeys fs h'
      | arr xs => simpa [pathKeysOk] using uniqE_imp_pathKeys xs (by simpa [uniqJson] using h)
      | str s => rfl
      | num n => rfl
      | bool b => rfl
      | null => rfl

theorem uniqF_imp_pathKeys :
    ∀ fs : List (String × JsonValue), uniqFields fs = true → pathKeysFields fs = true
  | [], _ => rfl
  | (k, v) :: rest, h => by
      have h' : pathSafeKey k = true ∧ uniqJson v = true ∧ uniqFields rest = true := by
        simpa [uniqFields, Bool.and_eq_true, and_assoc] using h
      simp [pathKeysFields, h'.1, uniq_imp_pathKeys v h'.2.1, uniqF_imp_pathKeys rest h'.2.2]

theorem uniqE_imp_pathKeys :
    ∀ xs : List JsonValue, uniqElems xs = true → pathKeysElems xs = true
  | [], _ => rfl
  | v :: rest, h => by
      have h' : uniqJson v = true ∧ uniqElems rest = true := by
        simpa [uniqElems, Bool.and_eq_true] using h
      simp [pathKeysElems, uniq_imp_pathKeys v h'.1, uniqE_imp_pathKeys rest h'.2]
end

mutual
theorem safe_imp_pathKeys : ∀ v : JsonValue, safeJson v = true → pathKeysOk v = true
  | v, h => by
      cases v with
      | obj fs => simpa [pathKeysOk] using safeF_imp_pathKeys fs (by simpa [safeJson] using h)
      | arr xs => simpa [pathKeysOk] using safeE_imp_pathKeys xs (by simpa [safeJson] using h)
      | str s => rfl
      | num n => rfl
      | bool b => rfl
      | null => rfl

theorem safeF_imp_pathKeys :
    ∀ fs : List (String × JsonValue), safeFields fs = true → pathKeysFields fs = true
  | [], _ => rfl
  | (k, v) :: rest, h => by
      have h' : safeKey k = true ∧ safeJson v = true ∧ safeFields rest = true := by
        simpa [safeFields, Bool.and_eq_true, and_assoc] using h
      simp [pathKeysFields, safeKey_pathSafe h'.1, safe_imp_pathKeys v h'.2.1,
        safeF_imp_pathKeys rest h'.2.2]

theorem safeE_imp_pathKeys :
    ∀ xs : List JsonValue, safeElems xs = true → pathKeysElems xs = true
  | [], _ => rfl
  | v :: rest, h => by
      have h' : safeJson v = true ∧ safeElems rest = true := by
        simpa [safeElems, Bool.and_eq_true] using h
      simp [pathKeysElems, safe_imp_pathKeys v h'.1, safeE_imp_pathKeys rest h'.2]
end

mutual
theorem positions_pathSafe :
    ∀ v : JsonValue, pathKeysOk v = true → ∀ segs ∈ positionsOf v, ∀ k, Seg.key k ∈ segs →
      ∀ c ∈ k.data, c ≠ '.' ∧ c ≠ '['
  | v, h => by
      cases v with
      | obj fs =>
          intro segs hsegs k hk
          simp only [positionsOf, List.mem_cons] at hsegs
          rcases hsegs with rfl | hsegs
          · simp at hk
          · exact positionsF_pathSafe fs (by simpa [pathKeysOk] using h) segs hsegs k hk
      | arr xs =>
          intro segs hsegs k hk
          simp only [positionsOf, List.mem_cons] at hsegs
          rcases hsegs with rfl | hsegs
          · simp at hk
          · exact positionsE_pathSafe xs 0 (by simpa [pathKeysOk] using h) segs hsegs k hk
      | str s => intro segs hsegs k hk; simp [positionsOf] at hsegs; subst hsegs; simp at hk
      | num n => intro segs hsegs k hk; simp [positionsOf] at hsegs; subst hsegs; simp at hk
      | bool b => intro segs hsegs k hk; simp [positionsOf] at hsegs; subst hsegs; simp at hk
      | null => intro segs hsegs k hk; simp [positionsOf] at hsegs; subst hsegs; simp at hk

theorem positionsF_pathSafe :
    ∀ fs : List (String × JsonValue), pathKeysFields fs = true →
      ∀ segs ∈ positionsFields fs, ∀ k, Seg.key k ∈ segs →
        ∀ c ∈ k.data, c ≠ '.' ∧ c ≠ '['
  | [], _ => by intro segs hsegs; simp [positionsFields] at hsegs
  | (k0, v) :: rest, h => by
      have h' : pathSafeKey k0 = true ∧ pathKeysOk v = true ∧ pathKeysFields rest = true := by
        simpa [pathKeysFields, Bool.and_eq_true, and_assoc] using h
      intro segs hsegs k hk
      simp only [positionsFields] at hsegs
      rcases List.mem_append.mp hsegs with hm | hm
      · obtain ⟨s, hs, rfl⟩ := List.mem_map.mp hm
        rcases List.mem_cons.mp hk with hkk | hks
        · have : k = k0 := by
            have := hkk
            simp only [Seg.key.injEq] at this
            exact this
          subst this
          exact pathSafeKey_chars h'.1
        · exact positions_pathSafe v h'.2.1 s hs k hks
      · exact positionsF_pathSafe rest h'.2.2 segs hm k hk

theorem positionsE_pathSafe :
    ∀ (xs : List JsonValue) (i : Nat), pathKeysElems xs = true →
      ∀ segs ∈ positionsElems xs i, ∀ k, Seg.key k ∈ segs →
        ∀ c ∈ k.data, c ≠ '.' ∧ c ≠ '['
  | [], _, _ => by intro segs hsegs; simp [positionsElems] at hsegs
  | v :: rest, i, h => by
      have h' : pathKeysOk v = true ∧ pathKeysElems rest = true := by
        simpa [pathKeysElems, Bool.and_eq_true] using h
      intro segs hsegs k hk
      simp only [positionsElems] at hsegs
      rcases List.mem_append.mp hsegs with hm | hm
      · obtain ⟨s, hs, rfl⟩ := List.mem_map.mp hm
        rcases List.mem_cons.mp hk with hkk | hks
        · simp at hkk
        · exact positions_pathSafe v h'.1 s hs k hks
      · exact positionsE_pathSafe rest (i + 1) h'.2 segs hm k hk
end

/-! ## Claim C2 -/

/-- C2 (amended): for inputs whose objects have pairwise-distinct
keys containing neither `.` nor `[`, all produced node ids are
pairwise distinct, and the root value's id is exactly `root`. -/
theorem c2_unique_ids (v : JsonValue) (h : uniqJson v = true) :
    ((buildFlowFromJSON v).1.map (fun n => n.id)).Nodup ∧
    ((buildFlowFromJSON v).1.map (fun n => n.id)).head? = some "root" := by
  have hpk := uniq_imp_pathKeys v h
  rw [build_ids, idsOf_positions v "root" "root" (by decide) hpk]
  constructor
  · refine List.Nodup.map_on ?_ (positionsOf_nodup v h)
    intro x hx y hy hxy
    have hdx : renderChars x = renderChars y := by
      have h0 := congrArg String.data hxy
      rw [append_data, append_data] at h0
      have h1 := List.append_cancel_left h0
      simpa [renderSegs, data_mk] using h1
    exact renderChars_inj x y (positions_pathSafe v hpk x hx)
      (positions_pathSafe v hpk y hy) hdx
  · obtain ⟨rest, hrest⟩ := positionsOf_head v
    rw [hrest]
    simp [renderSegs_nil, String.append_empty]

/-- Witness for C2 at the Scenario B document. -/
theorem c2_unique_ids_witness :
    ((buildFlowFromJSON exScenarioB).1.map (fun n => n.id)).Nodup :=
  (c2_unique_ids exScenarioB (by decide)).1

/-! ## Edges of the traversal -/

theorem addNode_edges (st : BuildState) (id label type : String) (depth : Nat)
    (tooltip : String) : (addNode st id label type depth tooltip).edges = st.edges := rfl

mutual
theorem traverse_edges :
    ∀ (v : JsonValue) (path : String) (depth : Nat) (parent : Option String)
      (kl : String) (st : BuildState),
      (traverse v path depth parent kl st).edges = st.edges ++ edgesOf v path kl parent
  | v, path, depth, parent, kl, st => by
      cases v with
      | obj fs =>
          cases parent with
          | none =>
              simp only [traverse]
              rw [traverseFields_edges fs path depth _ _]
              simp [addNode_edges, edgesOf, selfEdges]
          | some pid =>
              simp only [traverse]
              rw [traverseFields_edges fs path depth _ _]
              simp [addNode_edges, edgesOf, selfEdges, List.append_assoc]
      | arr xs =>
          cases parent with
          | none =>
              simp only [traverse]
              rw [traverseElems_edges xs 0 path depth _ _]
              simp [addNode_edges, edgesOf, selfEdges]
          | some pid =>
              simp only [traverse]
              rw [traverseElems_edges xs 0 path depth _ _]
              simp [addNode_edges, edgesOf, selfEdges, List.append_assoc]
      | str s => cases parent <;> simp [traverse, addNode, edgesOf, selfEdges]
      | num n => cases parent <;> simp [traverse, addNode, edgesOf, selfEdges]
      | bool b => cases parent <;> simp [traverse, addNode, edgesOf, selfEdges]
      | null => cases parent <;> simp [traverse, addNode, edgesOf, selfEdges]

theorem traverseFields_edges :
    ∀ (fs : List (String × JsonValue)) (path : String) (depth : Nat) (pid : String)
      (st : BuildState),
      (traverseFields fs path depth pid st).edges = st.edges ++ edgesFields fs path pid
  | [], path, depth, pid, st => by simp [traverseFields, edgesFields]
  | (k, v) :: rest, path, depth, pid, st => by
      simp only [traverseFields]
      rw [traverseFields_edges rest path depth pid _, traverse_edges v _ _ _ _ _]
      simp [edgesFields, List.append_assoc]

theorem traverseElems_edges :
    ∀ (xs : List JsonValue) (i : Nat) (path : String) (depth : Nat) (pid : String)
      (st : BuildState),
      (traverseElems xs i path depth pid st).edges = st.edges ++ edgesElems xs i path pid
  | [], i, path, depth, pid, st => by simp [traverseElems, edgesElems]
  | v :: rest, i, path, depth, pid, st => by
      simp only [traverseElems]
      rw [traverseElems_edges rest (i + 1) path depth pid _, traverse_edges v _ _ _ _ _]
      simp [edgesElems, List.append_assoc]
end

theorem build_edges (v : JsonValue) :
    (buildFlowFromJSON v).2 = edgesOf v "root" "root" none := by
  simp only [buildFlowFromJSON]
  have h := traverse_edges v "root" 0 none "root" ⟨[], [], []⟩
  simpa using h

mutual
theorem edgesOf_targets :
    ∀ (v : JsonValue) (path kl pid : String),
      (edgesOf v path kl (some pid)).map (fun e => e.target) = idsOf v path kl
  | v, path, kl, pid => by
      cases v with
      | obj fs =>
          simp only [edgesOf, selfEdges, idsOf, List.singleton_append, List.map_cons]
          rw [edgesFields_targets fs path _]
      | arr xs =>
          simp only [edgesOf, selfEdges, idsOf, List.singleton_append, List.map_cons]
          rw [edgesElems_targets xs 0 path _]
      | str s => rfl
      | num n => rfl
      | bool b => rfl
      | null => rfl

theorem edgesFields_targets :
    ∀ (fs : List (String × JsonValue)) (path pid : String),
      (edgesFields fs path pid).map (fun e => e.target) = idsFields fs path
  | [], _, _ => rfl
  | (k, v) :: rest, path, pid => by
      simp only [edgesFields, idsFields, List.map_append]
      rw [edgesOf_targets v _ _ _, edgesFields_targets rest path pid]

theorem edgesElems_targets :
    ∀ (xs : List JsonValue) (i : Nat) (path pid : String),
      (edgesElems xs i path pid).map (fun e => e.target) = idsElems xs i path
  | [], _, _, _ => rfl
  | v :: rest, i, path, pid => by
      simp only [edgesElems, idsElems, List.map_append]
      rw [edgesOf_targets v _ _ _, edgesElems_targets rest (i + 1) path pid]
end

theorem edgesOf_none_targets (v : JsonValue) (path kl : String) :
    (edgesOf v path kl none).map (fun e => e.target) = (idsOf v path kl).tail := by
  cases v with
  | obj fs =>
      simp only [edgesOf, selfEdges, idsOf, List.nil_append, List.tail_cons]
      rw [edgesFields_targets fs path _]
  | arr xs =>
      simp only [edgesOf, selfEdges, idsOf, List.nil_append, List.tail_cons]
      rw [edgesElems_targets xs 0 path _]
  | str s => rfl
  | num n => rfl
  | bool b => rfl
  | null => rfl

theorem idsOf_eq_cons (v : JsonValue) (path kl : String) :
    idsOf v path kl = (if path = "" then kl else path) :: (idsOf v path kl).tail := by
  cases v <;> rfl

theorem countP_eq_one_of_nodup {l : List String} {a : String} (h : l.Nodup) (ha : a ∈ l) :
    l.countP (fun x => x = a) = 1 := by
  induction l with
  | nil => simp at ha
  | cons b t ih =>
      rw [List.nodup_cons] at h
      rw [List.countP_cons]
      rcases List.mem_cons.mp ha with rfl | hat
      · rw [List.countP_eq_zero.mpr ?_]
        · simp
        · intro x hx hxa
          simp only [decide_eq_true_eq] at hxa
          exact h.1 (hxa ▸ hx)
      · have hba : b ≠ a := fun hb => h.1 (hb ▸ hat)
        rw [ih h.2 hat]
        simp [hba]

/-! ## Edge lengths and acyclicity -/

theorem ne_empty_of_length_pos {s : String} (h : 0 < s.length) : s ≠ "" := by
  rw [ne_empty_iff_data]
  intro h0
  have : s.length = 0 := by
    show s.data.length = 0
    rw [h0]
    rfl
  omega

theorem makeChildPath_length {p : String} (k : String) (hp : p ≠ "") :
    p.length < (makeChildPath p k).length := by
  unfold makeChildPath
  by_cases hb : k.data.head? = some '['
  · rw [if_pos hb, if_neg hp, String.length_append]
    have hk : 0 < k.length := by
      show 0 < k.data.length
      cases hkd : k.data with
      | nil => rw [hkd] at hb; simp at hb
      | cons a t => simp
    omega
  · rw [if_neg hb, if_neg hp, String.length_append, String.length_append]
    have : 0 < ("." : String).length := by decide
    omega

mutual
theorem edgesOf_src_len :
    ∀ (v : JsonValue) (path kl : String) (parent : Option String), path ≠ "" →
      (∀ pid, parent = some pid → pid.length < path.length) →
      ∀ e ∈ edgesOf v path kl parent, e.source.length < e.target.length
  | v, path, kl, parent, hp, hpar => by
      cases v with
      | obj fs =>
          intro e he
          simp only [edgesOf] at he
          rw [if_neg hp] at he
          rcases List.mem_append.mp he with hm | hm
          · cases parent with
            | none => simp [selfEdges] at hm
            | some pid =>
                simp only [selfEdges, List.mem_singleton] at hm
                subst hm
                simpa using hpar pid rfl
          · exact edgesFields_src_len fs path hp e hm
      | arr xs =>
          intro e he
          simp only [edgesOf] at he
          rw [if_neg hp] at he
          rcases List.mem_append.mp he with hm | hm
          · cases parent with
            | none => simp [selfEdges] at hm
            | some pid =>
                simp only [selfEdges, List.mem_singleton] at hm
                subst hm
                simpa using hpar pid rfl
          · exact edgesElems_src_len xs 0 path hp e hm
      | str s =>
          intro e he
          simp only [edgesOf] at he
          rw [if_neg hp] at he
          cases parent with
          | none => simp [selfEdges] at he
          | some pid =>
              simp only [selfEdges, List.mem_singleton] at he
              subst he
              simpa using hpar pid rfl
      | num n =>
          intro e he
          simp only [edgesOf] at he
          rw [if_neg hp] at he
          cases parent with
          | none => simp [selfEdges] at he
          | some pid =>
              simp only [selfEdges, List.mem_singleton] at he
              subst he
              simpa using hpar pid rfl
      | bool b =>
          intro e he
          simp only [edgesOf] at he
          rw [if_neg hp] at he
          cases parent with
          | none => simp [selfEdges] at he
          | some pid =>
              simp only [selfEdges, List.mem_singleton] at he
              subst he
              simpa using hpar pid rfl
      | null =>
          intro e he
          simp only [edgesOf] at he
          rw [if_neg hp] at he
          cases parent with
          | none => simp [selfEdges] at he
          | some pid =>
              simp only [selfEdges, List.mem_singleton] at he
              subst he
              simpa using hpar pid rfl

theorem edgesFields_src_len :
    ∀ (fs : List (String × JsonValue)) (path : String), path ≠ "" →
      ∀ e ∈ edgesFields fs path path, e.source.length < e.target.length
  | [], _, _ => by intro e he; simp [edgesFields] at he
  | (k, v) :: rest, path, hp => by
      intro e he
      simp only [edgesFields] at he
      rcases List.mem_append.mp he with hm | hm
      · have hlen := makeChildPath_length (p := path) k hp
        refine edgesOf_src_len v (makeChildPath path k) k (some path)
          (ne_empty_of_length_pos (by omega)) ?_ e hm
        intro pid hpid
        injection hpid with hpid
        subst hpid
        exact hlen
      · exact edgesFields_src_len rest path hp e hm

theorem edgesElems_src_len :
    ∀ (xs : List JsonValue) (i : Nat) (path : String), path ≠ "" →
      ∀ e ∈ edgesElems xs i path path, e.source.length < e.target.length
  | [], _, _, _ => by intro e he; simp [edgesElems] at he
  | v :: rest, i, path, hp => by
      intro e he
      simp only [edgesElems] at he
      rcases List.mem_append.mp he with hm | hm
      · have hlen := makeChildPath_length (p := path) ("[" ++ natToStr i ++ "]") hp
        refine edgesOf_src_len v (makeChildPath path ("[" ++ natToStr i ++ "]"))
          ("[" ++ natToStr i ++ "]") (some path)
          (ne_empty_of_length_pos (by omega)) ?_ e hm
        intro pid hpid
        injection hpid with hpid
        subst hpid
        exact hlen
      · exact edgesElems_src_len rest (i + 1) path hp e hm
end

theorem transGen_length {es : List FlowEdge}
    (h : ∀ e ∈ es, e.source.length < e.target.length) {a b : String}
    (hab : Relation.TransGen (edgeRel es) a b) : a.length < b.length := by
  induction hab with
  | single h1 =>
      obtain ⟨e, he, hs, ht⟩ := h1
      rw [← hs, ← ht]
      exact h e he
  | tail _ h1 ih =>
      obtain ⟨e, he, hs, ht⟩ := h1
      have h2 := h e he
      rw [hs, ht] at h2
      omega

/-! ## Reachability from the root -/

theorem edgeRel_mono {es es' : List FlowEdge} (h : ∀ e ∈ es, e ∈ es') {a b : String}
    (hr : Relation.ReflTransGen (edgeRel es) a b) :
    Relation.ReflTransGen (edgeRel es') a b := by
  refine Relation.ReflTransGen.mono ?_ hr
  intro x y hxy
  obtain ⟨e, he, p⟩ := hxy
  exact ⟨e, h e he, p⟩

theorem selfEdge_mem (v : JsonValue) (q kl pid : String) (hq : q ≠ "") :
    (⟨pid ++ "->" ++ q, pid, q⟩ : FlowEdge) ∈ edgesOf v q kl (some pid) := by
  cases v <;> simp [edgesOf, selfEdges, if_neg hq]

mutual
theorem idsOf_reach :
    ∀ (v : JsonValue) (path kl : String) (parent : Option String), path ≠ "" →
      ∀ id ∈ idsOf v path kl,
        Relation.ReflTransGen (edgeRel (edgesOf v path kl parent)) path id
  | v, path, kl, parent, hp => by
      cases v with
      | obj fs =>
          intro id hid
          simp only [idsOf, if_neg hp, List.mem_cons] at hid
          rcases hid with rfl | hid
          · exact Relation.ReflTransGen.refl
          · refine edgeRel_mono ?_ (idsFields_reach fs path hp id hid)
            intro e he
            simp only [edgesOf]
            rw [if_neg hp]
            exact List.mem_append_right _ he
      | arr xs =>
          intro id hid
          simp only [idsOf, if_neg hp, List.mem_cons] at hid
          rcases hid with rfl | hid
          · exact Relation.ReflTransGen.refl
          · refine edgeRel_mono ?_ (idsElems_reach xs 0 path hp id hid)
            intro e he
            simp only [edgesOf]
            rw [if_neg hp]
            exact List.mem_append_right _ he
      | str s =>
          intro id hid
          simp only [idsOf, if_neg hp, List.mem_singleton] at hid
          subst hid
          exact Relation.ReflTransGen.refl
      | num n =>
          intro id hid
          simp only [idsOf, if_neg hp, List.mem_singleton] at hid
          subst hid
          exact Relation.ReflTransGen.refl
      | bool b =>
          intro id hid
          simp only [idsOf, if_neg hp, List.mem_singleton] at hid
          subst hid
          exact Relation.ReflTransGen.refl
      | null =>
          intro id hid
          simp only [idsOf, if_neg hp, List.mem_singleton] at hid
          subst hid
          exact Relation.ReflTransGen.refl

theorem idsFields_reach :
    ∀ (fs : List (String × JsonValue)) (path : String), path ≠ "" →
      ∀ id ∈ idsFields fs path,
        Relation.ReflTransGen (edgeRel (edgesFields fs path path)) path id
  | [], _, _ => by intro id hid; simp [idsFields] at hid
  | (k, v) :: rest, path, hp => by
      intro id hid
      simp only [idsFields] at hid
      have hlen := makeChildPath_length (p := path) k hp
      have hqne : makeChildPath path k ≠ "" := ne_empty_of_length_pos (by omega)
      rcases List.mem_append.mp hid with hm | hm
      · have hchild := idsOf_reach v (makeChildPath path k) k (some path) hqne id hm
        have hstep : edgeRel (edgesOf v (makeChildPath path k) k (some path)) path
            (makeChildPath path k) :=
          ⟨⟨path ++ "->" ++ makeChildPath path k, path, makeChildPath path k⟩,
            selfEdge_mem v _ k path hqne, rfl, rfl⟩
        refine edgeRel_mono ?_ (Relation.ReflTransGen.head hstep hchild)
        intro e he
        simp only [edgesFields]
        exact List.mem_append_left _ he
      · refine edgeRel_mono ?_ (idsFields_reach rest path hp id hm)
        intro e he
        simp only [edgesFields]
        exact List.mem_append_right _ he

theorem idsElems_reach :
    ∀ (xs : List JsonValue) (i : Nat) (path : String), path ≠ "" →
      ∀ id ∈ idsElems xs i path,
        Relation.ReflTransGen (edgeRel (edgesElems xs i path path)) path id
  | [], _, _, _ => by intro id hid; simp [idsElems] at hid
  | v :: rest, i, path, hp => by
      intro id hid
      simp only [idsElems] at hid
      have hlen := makeChildPath_length (p := path) ("[" ++ natToStr i ++ "]") hp
      have hqne : makeChildPath path ("[" ++ natToStr i ++ "]") ≠ "" :=
        ne_empty_of_length_pos (by omega)
      rcases List.mem_append.mp hid with hm | hm
      · have hchild := idsOf_reach v (makeChildPath path ("[" ++ natToStr i ++ "]"))
          ("[" ++ natToStr i ++ "]") (some path) hqne id hm
        have hstep : edgeRel (edgesOf v (makeChildPath path ("[" ++ natToStr i ++ "]"))
            ("[" ++ natToStr i ++ "]") (some path)) path
            (makeChildPath path ("[" ++ natToStr i ++ "]")) :=
          ⟨⟨path ++ "->" ++ makeChildPath path ("[" ++ natToStr i ++ "]"), path,
              makeChildPath path ("[" ++ natToStr i ++ "]")⟩,
            selfEdge_mem v _ _ path hqne, rfl, rfl⟩
        refine edgeRel_mono ?_ (Relation.ReflTransGen.head hstep hchild)
        intro e he
        simp only [edgesElems]
        exact List.mem_append_left _ he
      · refine edgeRel_mono ?_ (idsElems_reach rest (i + 1) path hp id hm)
        intro e he
        simp only [edgesElems]
        exact List.mem_append_right _ he
end

/-! ## Claim C6 -/

theorem ids_nodup (v : JsonValue) (h : uniqJson v = true) :
    (idsOf v "root" "root").Nodup := by
  have hpk := uniq_imp_pathKeys v h
  rw [idsOf_positions v "root" "root" (by decide) hpk]
  refine List.Nodup.map_on ?_ (positionsOf_nodup v h)
  intro x hx y hy hxy
  have hdx : renderChars x = renderChars y := by
    have h0 := congrArg String.data hxy
    rw [append_data, append_data] at h0
    have h1 := List.append_cancel_left h0
    simpa [renderSegs, data_mk] using h1
  exact renderChars_inj x y (positions_pathSafe v hpk x hx)
    (positions_pathSafe v hpk y hy) hdx

theorem ids_root_cons (v : JsonValue) :
    idsOf v "root" "root" = "root" :: (idsOf v "root" "root").tail := by
  have h := idsOf_eq_cons v "root" "root"
  simpa using h

/-- C6 (amended): for inputs whose objects have pairwise-distinct
keys containing neither `.` nor `[`, the produced edges form exactly
one tree rooted at the node with id `root`: no edge targets `root`,
every non-root node id has exactly one incoming edge, the edge
relation has no cycles, and every node is reachable from `root`. -/
theorem c6_tree_shape (v : JsonValue) (h : uniqJson v = true) :
    (∀ e ∈ (buildFlowFromJSON v).2, e.target ≠ "root") ∧
    (∀ n ∈ (buildFlowFromJSON v).1, n.id ≠ "root" →
       (buildFlowFromJSON v).2.countP (fun e => e.target = n.id) = 1) ∧
    (∀ a : String, ¬ Relation.TransGen (edgeRel (buildFlowFromJSON v).2) a a) ∧
    (∀ n ∈ (buildFlowFromJSON v).1,
       Relation.ReflTransGen (edgeRel (buildFlowFromJSON v).2) "root" n.id) := by
  have hnodup := ids_nodup v h
  have hcons := ids_root_cons v
  have htargets : (buildFlowFromJSON v).2.map (fun e => e.target) =
      (idsOf v "root" "root").tail := by
    rw [build_edges, edgesOf_none_targets]
  have hroot_notin : "root" ∉ (idsOf v "root" "root").tail := by
    intro hmem
    rw [hcons, List.nodup_cons] at hnodup
    exact hnodup.1 hmem
  have htail_nodup : (idsOf v "root" "root").tail.Nodup := by
    rw [hcons, List.nodup_cons] at hnodup
    exact hnodup.2
  refine ⟨?_, ?_, ?_, ?_⟩
  · intro e he heq
    have hm : e.target ∈ (buildFlowFromJSON v).2.map (fun e => e.target) :=
      List.mem_map_of_mem _ he
    rw [htargets, heq] at hm
    exact hroot_notin hm
  · intro n hn hne
    have hidm : n.id ∈ idsOf v "root" "root" := by
      rw [← build_ids]
      exact List.mem_map_of_mem _ hn
    have htl : n.id ∈ (idsOf v "root" "root").tail := by
      rw [hcons] at hidm
      rcases List.mem_cons.mp hidm with heq | htl
      · exact absurd heq hne
      · exact htl
    have hcount := countP_eq_one_of_nodup htail_nodup htl
    rw [← htargets] at hcount
    rw [List.countP_map] at hcount
    simpa [Function.comp] using hcount
  · intro a hcyc
    have hsrc : ∀ e ∈ (buildFlowFromJSON v).2, e.source.length < e.target.length := by
      rw [build_edges]
      refine edgesOf_src_len v "root" "root" none (by decide) ?_
      intro pid hpid
      exact Option.noConfusion hpid
    have := transGen_length hsrc hcyc
    omega
  · intro n hn
    have hidm : n.id ∈ idsOf v "root" "root" := by
      rw [← build_ids]
      exact List.mem_map_of_mem _ hn
    rw [build_edges]
    exact idsOf_reach v "root" "root" none (by decide) n.id hidm

/-- Witness for C6 at the Scenario B document. -/
theorem c6_tree_shape_witness :
    ("root.items" : String) ≠ "root" ∧
    ¬ Relation.TransGen (edgeRel (buildFlowFromJSON exScenarioB).2) "root" "root" := by
  have h := c6_tree_shape exScenarioB (by decide)
  exact ⟨h.1 ⟨"root->root.items", "root", "root.items"⟩ (by decide), h.2.2.1 "root"⟩

/-! ## Claim C1: the round trip -/

theorem mk_data_eq (s : String) : String.mk s.data = s := rfl

theorem segsSafe_key {segs : List Seg} (h : segsSafe segs = true) :
    ∀ k, Seg.key k ∈ segs → safeKey k = true := by
  intro k hk
  unfold segsSafe at h
  rw [List.all_eq_true] at h
  simpa using h _ hk

theorem segsSafe_cons_key {k : String} {rest : List Seg}
    (h : segsSafe (.key k :: rest) = true) : safeKey k = true ∧ segsSafe rest = true := by
  simpa [segsSafe] using h

theorem segsSafe_cons_idx {i : Nat} {rest : List Seg}
    (h : segsSafe (.idx i :: rest) = true) : segsSafe rest = true := by
  simpa [segsSafe] using h

theorem segsSafe_scan_hyp {segs : List Seg} (h : segsSafe segs = true) :
    ∀ k, Seg.key k ∈ segs → k ≠ "" ∧ ∀ c ∈ k.data, c ≠ '.' ∧ c ≠ '[' := by
  intro k hk
  have hc := safeKey_chars (segsSafe_key h k hk)
  exact ⟨hc.1, fun c hcm => ⟨(hc.2.1 c hcm).1, (hc.2.1 c hcm).2.1⟩⟩

theorem renderChars_no_ws :
    ∀ segs : List Seg, segsSafe segs = true →
      ∀ c ∈ renderChars segs, jsWhitespace c = false
  | [], _ => by simp [renderChars]
  | .key k :: rest, h => by
      obtain ⟨hk, hrest⟩ := segsSafe_cons_key h
      intro c hc
      rw [renderChars_cons] at hc
      rcases List.mem_append.mp hc with hm | hm
      · simp only [segChars, List.mem_cons] at hm
        rcases hm with rfl | hm
        · decide
        · exact ((safeKey_chars hk).2.1 c hm).2.2
      · exact renderChars_no_ws rest hrest c hm
  | .idx i :: rest, h => by
      have hrest := segsSafe_cons_idx h
      intro c hc
      rw [renderChars_cons] at hc
      rcases List.mem_append.mp hc with hm | hm
      · rcases List.mem_cons.mp hm with rfl | hm2
        · decide
        · rcases List.mem_append.mp hm2 with hm3 | hm3
          · exact jsWhitespace_eq_false_of_digit (natToStr_digits c hm3)
          · simp only [List.mem_singleton] at hm3
            subst hm3
            decide
      · exact renderChars_no_ws rest hrest c hm

mutual
theorem positions_segsSafe :
    ∀ v : JsonValue, safeJson v = true → ∀ segs ∈ positionsOf v, segsSafe segs = true
  | v, h => by
      cases v with
      | obj fs =>
          intro segs hsegs
          simp only [positionsOf, List.mem_cons] at hsegs
          rcases hsegs with rfl | hsegs
          · rfl
          · exact positionsF_segsSafe fs (by simpa [safeJson] using h) segs hsegs
      | arr xs =>
          intro segs hsegs
          simp only [positionsOf, List.mem_cons] at hsegs
          rcases hsegs with rfl | hsegs
          · rfl
          · exact positionsE_segsSafe xs 0 (by simpa [safeJson] using h) segs hsegs
      | str s => intro segs hsegs; simp [positionsOf] at hsegs; subst hsegs; rfl
      | num n => intro segs hsegs; simp [positionsOf] at hsegs; subst hsegs; rfl
      | bool b => intro segs hsegs; simp [positionsOf] at hsegs; subst hsegs; rfl
      | null => intro segs hsegs; simp [positionsOf] at hsegs; subst hsegs; rfl

theorem positionsF_segsSafe :
    ∀ fs : List (String × JsonValue), safeFields fs = true →
      ∀ segs ∈ positionsFields fs, segsSafe segs = true
  | [], _ => by intro segs hsegs; simp [positionsFields] at hsegs
  | (k0, v) :: rest, h => by
      have h' : safeKey k0 = true ∧ safeJson v = true ∧ safeFields rest = true := by
        simpa [safeFields, Bool.and_eq_true, and_assoc] using h
      intro segs hsegs
      simp only [positionsFields] at hsegs
      rcases List.mem_append.mp hsegs with hm | hm
      · obtain ⟨s, hs, rfl⟩ := List.mem_map.mp hm
        have hss := positions_segsSafe v h'.2.1 s hs
        simp [segsSafe, h'.1]
        simpa [segsSafe] using hss
      · exact positionsF_segsSafe rest h'.2.2 segs hm

theorem positionsE_segsSafe :
    ∀ (xs : List JsonValue) (i : Nat), safeElems xs = true →
      ∀ segs ∈ positionsElems xs i, segsSafe segs = true
  | [], _, _ => by intro segs hsegs; simp [positionsElems] at hsegs
  | v :: rest, i, h => by
      have h' : safeJson v = true ∧ safeElems rest = true := by
        simpa [safeElems, Bool.and_eq_true] using h
      intro segs hsegs
      simp only [positionsElems] at hsegs
      rcases List.mem_append.mp hsegs with hm | hm
      · obtain ⟨s, hs, rfl⟩ := List.mem_map.mp hm
        have hss := positions_segsSafe v h'.1 s hs
        simp [segsSafe]
        simpa [segsSafe] using hss
      · exact positionsE_segsSafe rest (i + 1) h'.2 segs hm
end

theorem stripRootLead_nil : stripRootLead ("root" ++ renderSegs []) = "" := by decide

theorem stripRootLead_key (k : String) (rest : List Seg) :
    stripRootLead ("root" ++ renderSegs (.key k :: rest)) =
      String.mk (k.data ++ renderChars rest) := by
  have hdata : ("root" ++ renderSegs (.key k :: rest)).data =
      'r' :: 'o' :: 'o' :: 't' :: '.' :: (k.data ++ renderChars rest) := by
    rw [append_data]
    rfl
  unfold stripRootLead
  rw [hdata]
  rw [if_pos (by simp [List.isPrefixOf])]
  simp

theorem stripRootLead_idx (i : Nat) (rest : List Seg) :
    stripRootLead ("root" ++ renderSegs (.idx i :: rest)) =
      String.mk (renderChars (.idx i :: rest)) := by
  have hdata : ("root" ++ renderSegs (.idx i :: rest)).data =
      'r' :: 'o' :: 'o' :: 't' :: renderChars (.idx i :: rest) := by
    rw [append_data]
    rfl
  unfold stripRootLead
  rw [hdata]
  rw [if_neg (by simp [List.isPrefixOf, renderChars_cons, segChars]),
    if_pos (by simp [List.isPrefixOf])]
  simp

theorem parse_dollar_dot (q : String) (hws : ∀ c ∈ q.data, jsWhitespace c = false)
    (h1 : q.data.head? ≠ some '$') (h2 : q.data.head? ≠ some '.') :
    parseJsonPath ("$." ++ q) = parseJsonPath q := by
  have hdata : ("$." ++ q).data = '$' :: '.' :: q.data := by
    rw [append_data]
    rfl
  have hne : ("$." ++ q) ≠ "" := by
    rw [ne_empty_iff_data, hdata]
    simp
  have hws' : ∀ c ∈ '$' :: '.' :: q.data, jsWhitespace c = false := by
    intro c hc
    rcases List.mem_cons.mp hc with rfl | hc
    · decide
    · rcases List.mem_cons.mp hc with rfl | hc
      · decide
      · exact hws c hc
  have hstrip : stripLead ('$' :: '.' :: q.data) = q.data := by
    simp [stripLead]
  unfold parseJsonPath
  rw [if_neg hne, hdata, trimChars_eq_self hws', hstrip]
  by_cases hq : q = ""
  · subst hq
    decide
  · rw [if_neg hq, trimChars_eq_self hws, stripLead_eq_self h1 h2]

theorem parse_normalize (q : String) (hws : ∀ c ∈ q.data, jsWhitespace c = false)
    (h1 : q.data.head? ≠ some '$') (h2 : q.data.head? ≠ some '.') :
    parseJsonPath (normalizeQuery q) = parseJsonPath q := by
  unfold normalizeQuery
  by_cases hc : (q.data.head? == some '$' || "root".data.isPrefixOf q.data ||
      q.data.contains '[' || q.data.contains '.') = true
  · rw [if_pos hc]
  · rw [if_neg hc]
    exact parse_dollar_dot q hws h1 h2

theorem toksOfSegs_ne_empty {segs : List Seg} (h : segsSafe segs = true) :
    ∀ t ∈ toksOfSegs segs, t ≠ "" := by
  intro t ht
  obtain ⟨s, hs, rfl⟩ := List.mem_map.mp ht
  cases s with
  | key k => exact (safeKey_chars (segsSafe_key h k hs)).1
  | idx i =>
      rw [tokenOfSeg, ne_empty_iff_data, append_data, append_data]
      simp

theorem parse_canonical :
    ∀ segs : List Seg, segsSafe segs = true →
      parseJsonPath (normalizeQuery (stripRootLead ("root" ++ renderSegs segs))) =
        some (toksOfSegs segs)
  | [], _ => by decide
  | .key k :: rest, h => by
      obtain ⟨hk, hrest⟩ := segsSafe_cons_key h
      have hkc := safeKey_chars hk
      have hkd : k.data ≠ [] := ne_empty_iff_data.mp hkc.1
      rw [stripRootLead_key k rest]
      have hwsD : ∀ c ∈ k.data ++ renderChars rest, jsWhitespace c = false := by
        intro c hc
        rcases List.mem_append.mp hc with hm | hm
        · exact (hkc.2.1 c hm).2.2
        · exact renderChars_no_ws rest hrest c hm
      have hhead : (k.data ++ renderChars rest).head? ≠ some '$' ∧
          (k.data ++ renderChars rest).head? ≠ some '.' := by
        cases hkdd : k.data with
        | nil => exact absurd hkdd hkd
        | cons a t =>
            have haS : a ≠ '$' := by
              intro hEq
              apply hkc.2.2
              rw [hkdd, hEq]
              simp
            have haP : a ≠ '.' := (hkc.2.1 a (by rw [hkdd]; simp)).1
            constructor <;> simp [haS, haP]
      have hmkne : String.mk (k.data ++ renderChars rest) ≠ "" := by
        rw [ne_empty_iff_data, data_mk]
        simp [hkd]
      rw [parse_normalize (String.mk (k.data ++ renderChars rest))
        (by rw [data_mk]; exact hwsD) (by rw [data_mk]; exact hhead.1)
        (by rw [data_mk]; exact hhead.2)]
      unfold parseJsonPath
      rw [if_neg hmkne, data_mk, trimChars_eq_self hwsD, stripLead_eq_self hhead.1 hhead.2]
      have hscan : scan (k.data ++ renderChars rest) (.top []) [] =
          some (toksOfSegs (.key k :: rest)) := by
        rw [scan_top_chars (fun c hc => ⟨(hkc.2.1 c hc).1, (hkc.2.1 c hc).2.1⟩) _ _ _]
        simp only [List.nil_append]
        rw [scan_renderChars (segsSafe_scan_hyp hrest) k.data []]
        rw [flushBuf_of_ne hkd]
        simp [toksOfSegs, tokenOfSeg, mk_data_eq]
      rw [hscan]
      simp only [Option.map_some']
      congr 1
      rw [List.filter_eq_self.mpr ?_]
      intro t ht
      simpa using toksOfSegs_ne_empty h t ht
  | .idx i :: rest, h => by
      have hrest := segsSafe_cons_idx h
      rw [stripRootLead_idx i rest]
      have hwsD : ∀ c ∈ renderChars (Seg.idx i :: rest), jsWhitespace c = false :=
        renderChars_no_ws _ h
      have hhead : (renderChars (Seg.idx i :: rest)).head? = some '[' := by
        rw [renderChars_cons]
        rfl
      have hmkne : String.mk (renderChars (Seg.idx i :: rest)) ≠ "" := by
        rw [ne_empty_iff_data, data_mk]
        exact renderChars_cons_ne_nil _ _
      rw [parse_normalize (String.mk (renderChars (Seg.idx i :: rest)))
        (by rw [data_mk]; exact hwsD) (by rw [data_mk, hhead]; simp)
        (by rw [data_mk, hhead]; simp)]
      unfold parseJsonPath
      rw [if_neg hmkne, data_mk, trimChars_eq_self hwsD,
        stripLead_eq_self (by rw [hhead]; simp) (by rw [hhead]; simp)]
      rw [scan_renderChars (segsSafe_scan_hyp h) [] []]
      have hflush : flushBuf ([] : List Char) = [] := by simp [flushBuf]
      rw [hflush]
      simp only [Option.map_some', List.append_nil, List.nil_append]
      congr 1
      rw [List.filter_eq_self.mpr ?_]
      intro t ht
      simpa using toksOfSegs_ne_empty h t ht

theorem foldl_toksOfSegs :
    ∀ segs : List Seg, (∀ k, Seg.key k ∈ segs → ∀ c ∈ k.data, c ≠ '.' ∧ c ≠ '[') →
      ∀ p : String, p ≠ "" →
        (toksOfSegs segs).foldl makeChildPath p = p ++ renderSegs segs
  | [], _, p, hp => by
      rw [renderSegs_nil, String.append_empty]
      rfl
  | .key k :: rest, hsafe, p, hp => by
      have hk := hsafe k (by simp)
      have hhead : k.data.head? ≠ some '[' := by
        intro hh
        exact (hk '[' (List.mem_of_mem_head? (by simp [hh]))).2 rfl
      simp only [toksOfSegs, List.map_cons, List.foldl_cons]
      rw [show makeChildPath p (tokenOfSeg (.key k)) = p ++ "." ++ k from
        makeChildPath_key hp hhead]
      rw [show (List.map tokenOfSeg rest : List String) = toksOfSegs rest from rfl]
      rw [foldl_toksOfSegs rest (fun k' hk' => hsafe k' (by simp [hk']))
        _ (append_ne_empty_left _ (append_ne_empty_left _ hp))]
      exact append_renderSegs_key p k rest
  | .idx i :: rest, hsafe, p, hp => by
      simp only [toksOfSegs, List.map_cons, List.foldl_cons]
      rw [show makeChildPath p (tokenOfSeg (.idx i)) = p ++ ("[" ++ natToStr i ++ "]") from
        makeChildPath_bracket hp (bracketTok_head i)]
      rw [show (List.map tokenOfSeg rest : List String) = toksOfSegs rest from rfl]
      rw [foldl_toksOfSegs rest (fun k' hk' => hsafe k' (by simp [hk']))
        _ (append_ne_empty_left _ hp)]
      exact append_renderSegs_idx p i rest

theorem find_node_by_id {nodes : List FlowNode} {target : String}
    (h : ∃ x ∈ nodes, x.id = target) :
    ∃ m, nodes.find? (fun n => n.id = target) = some m ∧ m.id = target := by
  have hsome : (nodes.find? (fun n => n.id = target)).isSome = true := by
    rw [List.find?_isSome]
    obtain ⟨x, hx, hid⟩ := h
    exact ⟨x, hx, by simp [hid]⟩
  obtain ⟨m, hm⟩ := Option.isSome_iff_exists.mp hsome
  refine ⟨m, hm, ?_⟩
  have := List.find?_some hm
  simpa using this

/-- C1 (amended): for inputs whose object keys are non-empty, contain
no `.`, `[`, or whitespace, and do not start with `$`, every node id
`p` of the built graph round-trips: stripping the leading
`root`/`root.`, normalizing, tokenizing and composing from `root`
resolves to a node whose id is `p`. -/
theorem c1_round_trip (v : JsonValue) (h : safeJson v = true) :
    ∀ n ∈ (buildFlowFromJSON v).1,
      ∃ m, resolveQuery (stripRootLead n.id) (buildFlowFromJSON v).1 = some m ∧
        m.id = n.id := by
  intro n hn
  have hpk := safe_imp_pathKeys v h
  have hidm : n.id ∈ (buildFlowFromJSON v).1.map (fun n => n.id) :=
    List.mem_map_of_mem _ hn
  rw [build_ids, idsOf_positions v "root" "root" (by decide) hpk] at hidm
  obtain ⟨segs, hsegs, hid⟩ := List.mem_map.mp hidm
  have hsafe : segsSafe segs = true := positions_segsSafe v h segs hsegs
  rw [← hid]
  unfold resolveQuery
  have hfnp : findNodeByPath (normalizeQuery (stripRootLead ("root" ++ renderSegs segs)))
      (buildFlowFromJSON v).1 =
      (buildFlowFromJSON v).1.find?
        (fun nd => nd.id = (toksOfSegs segs).foldl makeChildPath "root") := by
    unfold findNodeByPath
    rw [parse_canonical segs hsafe]
  rw [hfnp]
  rw [foldl_toksOfSegs segs (fun k hk => (segsSafe_scan_hyp hsafe k hk).2) "root" (by decide)]
  apply find_node_by_id
  exact ⟨n, hn, hid.symm⟩

/-- Witness for C1: the root node of `{"a": 1}` round-trips. -/
theorem c1_round_trip_witness :
    ∃ m, resolveQuery (stripRootLead "root") (buildFlowFromJSON exSimple).1 = some m ∧
      m.id = "root" := by
  have hmem : ∃ n ∈ (buildFlowFromJSON exSimple).1, n.id = "root" := by decide
  obtain ⟨n, hn, hid⟩ := hmem
  have h := c1_round_trip exSimple (by decide) n hn
  rw [hid] at h
  exact h

end JsonTree
